import Mathlib

/-!
Shallow embedding of the `rust-bdecode` crate (a bencode decoder): the
integer grammar validator/decoder (`src/parse_int.rs`), the packed token
record (`src/token.rs`), the parse stack frame (`src/stack_frame.rs`), the
tokenizing parser `bdecode` (`src/lib.rs`) and the node/handle traversal
layer (`src/lib.rs`, `src/iterators.rs`).

Bytes are `Nat` values (< 256 in every real buffer); buffers are `List Nat`.
Rust `i64` arithmetic is `Int` with explicit range checks mirroring the
source's `checked_mul` / `checked_add` / `checked_sub` calls.  Fallible Rust
code returns `Res`, whose `crash` constructor models a Rust panic (an
out-of-bounds index, a failed `assert!`/`debug_assert!`, an `unwrap()` of
`None`, or an arithmetic underflow of `usize`); `fail e` models `Err(e)`.
Loops are modelled with explicit fuel; fuel exhaustion is `crash`.
-/

namespace Bdecode

/-- Error enum of the crate (`BdecodeError` in `lib.rs`, spelled
`BDecodeError` in the `parse_int.rs`/`token.rs` snapshot; same variants). -/
inductive BDecodeError where
  | ExpectedDigit
  | ExpectedColon
  | UnexpectedEof
  | ExpectedValue
  | DepthExceeded
  | LimitExceeded
  | Overflow
  | LeadingZero
  | NegativeZero
deriving DecidableEq, Repr

/-- `TokenType` from `token.rs`, with its numeric discriminants 1..5. -/
inductive TokenType where
  | Dict
  | List
  | Str
  | Int
  | End
deriving DecidableEq, Repr

/-- The numeric code stored in the low 3 bits of a token (`Dict = 1`, ...,
`End = 5`), exactly the enum discriminants of the source. -/
def TokenType.code : TokenType → Nat
  | .Dict => 1
  | .List => 2
  | .Str => 3
  | .Int => 4
  | .End => 5

/-- Inverse of `TokenType.code`.  Codes outside 1..5 are unreachable (every
`Token` is built by `Token.new` from a `TokenType`, and `set_next_item`
leaves the low 3 bits untouched); the source marks that branch
`unreachable!()`, we default it to `End`. -/
def typeOfCode (c : Nat) : TokenType :=
  match c with
  | 1 => .Dict
  | 2 => .List
  | 3 => .Str
  | 4 => .Int
  | 5 => .End
  | _ => .End

/-- The packed 64-bit token record of `token.rs`: bits 35..63 hold the
offset, bits 6..34 the relative `next_item` link, bits 3..5 the string
header length (minus the 2 implied bytes), bits 0..2 the type code.  Since
the fields occupy disjoint bit ranges and every constructor bounds them
(`offset, next_item ≤ 2^29 - 1`, `header ≤ 7`, code ≤ 5), the source's
shift/mask arithmetic on the `u64` is the div/mod arithmetic below. -/
structure Token where
  inner : Nat
deriving DecidableEq, Repr

instance : Inhabited Token := ⟨⟨0⟩⟩

def Token.MAX_OFFSET : Nat := 2 ^ 29 - 1

def Token.MAX_NEXT_ITEM : Nat := 2 ^ 29 - 1

def Token.MAX_HEADER : Nat := 2 ^ 3 - 1

/-- `Token::new`: rejects out-of-range fields with `LimitExceeded`, else
packs them (`offset << 35 | next_item << 6 | header << 3 | type`). -/
def Token.new (offset : Nat) (token_type : TokenType) (next_item : Nat)
    (header : Nat) : Except BDecodeError Token :=
  if offset > Token.MAX_OFFSET ∨ next_item > Token.MAX_NEXT_ITEM ∨
      header > Token.MAX_HEADER then
    .error .LimitExceeded
  else
    .ok ⟨offset * 2 ^ 35 + next_item * 2 ^ 6 + header * 2 ^ 3 +
      token_type.code⟩

/-- `Token::offset`: `(inner & OFFSET_MASK) >> 35`, i.e. the high bits. -/
def Token.offset (t : Token) : Nat := t.inner / 2 ^ 35

/-- `Token::next_item`: `(inner & NEXT_ITEM_MASK) >> 6` (29 bits). -/
def Token.next_item (t : Token) : Nat := t.inner / 2 ^ 6 % 2 ^ 29

/-- `Token::header`: `(inner & HEADER_MASK) >> 3` (3 bits).  This is the
raw stored value: the length of a string's length-prefix-plus-colon header
minus the 2 implied bytes (one digit and the colon), see `token.rs`. -/
def Token.header (t : Token) : Nat := t.inner / 2 ^ 3 % 2 ^ 3

/-- `Token::token_type`: decode the low 3 bits. -/
def Token.token_type (t : Token) : TokenType := typeOfCode (t.inner % 2 ^ 3)

/-- `Token::set_next_item`: clear bits 6..34 and install the new link;
`LimitExceeded` if it does not fit. -/
def Token.set_next_item (t : Token) (new_next_item : Nat) :
    Except BDecodeError Token :=
  if new_next_item > Token.MAX_NEXT_ITEM then
    .error .LimitExceeded
  else
    .ok ⟨t.inner / 2 ^ 35 * 2 ^ 35 + new_next_item * 2 ^ 6 + t.inner % 2 ^ 6⟩

/-- Modelled from the spec: `Token::start_offset` is called by the handle
layer in `lib.rs` (`BencodeString::as_bytes`, `BencodeDict::find`) but its
definition is absent from the `token.rs` under `src/` (that snapshot only
has the raw `header` accessor).  The spec defines the header of a string as
the full byte count of its length prefix and separator, "used to locate the
first payload byte", and `token.rs` documents that the stored 3-bit field
omits the 2 implied bytes (at least one digit, plus the colon); hence
`start_offset` returns the stored header plus 2. -/
def Token.start_offset (t : Token) : Nat := t.header + 2

/-- `StackFrameState` from `stack_frame.rs` (`Key = 0`, `Value = 1`). -/
inductive StackFrameState where
  | Key
  | Value
deriving DecidableEq, Repr

/-- The packed `u32` stack frame of `stack_frame.rs`: token index in the
high 31 bits, key/value state in bit 0.  `StackFrame::new` computes
`(token << 1) | state` on `u32`, which wraps modulo `2^32`; since the
shifted token is even, the `|` is a `+`. -/
structure StackFrame where
  inner : Nat
deriving DecidableEq, Repr

instance : Inhabited StackFrame := ⟨⟨0⟩⟩

def StackFrame.new (token : Nat) (state : StackFrameState) : StackFrame :=
  ⟨token * 2 % 2 ^ 32 + (match state with | .Key => 0 | .Value => 1)⟩

/-- `StackFrame::token`: `(inner & TOKEN_MASK) >> 1`, i.e. `inner / 2`. -/
def StackFrame.token (f : StackFrame) : Nat := f.inner / 2

/-- `StackFrame::state`: bit 0. -/
def StackFrame.state (f : StackFrame) : StackFrameState :=
  if f.inner % 2 = 0 then .Key else .Value

/-- `StackFrame::toggle_state`: `inner ^ 1` (flip bit 0). -/
def StackFrame.toggle_state (f : StackFrame) : StackFrame :=
  if f.inner % 2 = 0 then ⟨f.inner + 1⟩ else ⟨f.inner - 1⟩

/-- Computation outcome: `ok`, a structured error (`fail`), or a Rust
panic (`crash`): an out-of-bounds index, failed assertion, `unwrap` of
`None`, `usize` underflow, or an exhausted loop fuel. -/
inductive Res (α : Type) where
  | ok : α → Res α
  | fail : BDecodeError → Res α
  | crash : Res α
deriving DecidableEq, Repr

def Res.bind : Res α → (α → Res β) → Res β
  | .ok a, f => f a
  | .fail e, _ => .fail e
  | .crash, _ => .crash

instance : Monad Res where
  pure := .ok
  bind := Res.bind

/-- Lift the `Except`-returning leaf functions (the `?` operator). -/
def liftE : Except BDecodeError α → Res α
  | .ok a => .ok a
  | .error e => .fail e

/-- Rust slice indexing `v[i]` on a `Vec`/`Array`: panic when out of
bounds. -/
def agetBang (a : Array α) (i : Nat) : Res α :=
  match a[i]? with
  | some x => .ok x
  | none => .crash

/-- Rust slice indexing `buf[i]` on the input byte slice. -/
def lgetBang (l : List Nat) (i : Nat) : Res Nat :=
  match l[i]? with
  | some x => .ok x
  | none => .crash

/-- Rust `v[i] = x` on a `Vec`: panic when out of bounds. -/
def asetBang (a : Array α) (i : Nat) (x : α) : Res (Array α) :=
  if h : i < a.size then .ok (a.set ⟨i, h⟩ x) else .crash

/-- Rust subslicing `&buf[a..b]`: panics if `a > b` or `b > len`. -/
def lsliceBang (l : List Nat) (a b : Nat) : Res (List Nat) :=
  if a ≤ b ∧ b ≤ l.length then .ok ((l.drop a).take (b - a)) else .crash

/-- Rust `usize` subtraction `a - b`: panics (debug) on underflow. -/
def subBang (a b : Nat) : Res Nat :=
  if b ≤ a then .ok (a - b) else .crash

/-- A `debug_assert!`: panic when the condition fails. -/
def dassert (c : Prop) [Decidable c] : Res Unit :=
  if c then .ok () else .crash

/-! ## `parse_int.rs` -/

/-- `is_numeric`: the byte is an ASCII decimal digit (48..57). -/
def is_numeric (byte : Nat) : Bool := decide (48 ≤ byte ∧ byte ≤ 57)

/-- `MAX_BYTES_COMMON`: the first 18 ASCII digits of `i64::MAX`
(`9223372036854775807`), shared by `i64::MIN`'s magnitude. -/
def MAX_BYTES_COMMON : List Nat :=
  [57, 50, 50, 51, 51, 55, 50, 48, 51, 54, 56, 53, 52, 55, 55, 53, 56, 48]

/-- The zip loop of `will_integer_fit_i64`: compare digit bytes against the
threshold digits; `some false` / `some true` on the first strict
difference, `none` when all compared pairs are equal. -/
def fitZip : List Nat → List Nat → Option Bool
  | byte :: bs, max_byte :: ms =>
    if byte > max_byte then some false
    else if byte < max_byte then some true
    else fitZip bs ms
  | _, _ => none

/-- `will_integer_fit_i64` (`parse_int.rs`): the coarse bound check on a
(sign-stripped) digit string.  More than 20 digits never fits; up to 18
always does; for 19 or 20 digits the first 18 digits are compared
lexicographically with `MAX_BYTES_COMMON` and, on a tie, the 19th digit
(`bytes[18]`) is compared with `'7' + negative`. -/
def will_integer_fit_i64 (bytes : List Nat) (negative : Bool) : Bool :=
  let num_digits := bytes.length
  if num_digits > 20 then false
  else if num_digits ≤ 18 then true
  else
    -- `bytes[18]` exists here because `19 ≤ num_digits`.
    let last_byte := bytes.getD 18 0
    match fitZip (bytes.take 18) MAX_BYTES_COMMON with
    | some r => r
    | none =>
      let last_byte_max := 55 + (if negative then 1 else 0)
      decide (last_byte ≤ last_byte_max)

/-- `check_integer` (`parse_int.rs`): the tokenizing-time validation of an
integer literal: rejects empty input, a lone `-`, any non-digit, and digit
counts that provably overflow `i64` (via `will_integer_fit_i64`). -/
def check_integer (bytes : List Nat) : Except BDecodeError Unit :=
  if bytes.length = 0 then .error .UnexpectedEof
  else
    let negative := bytes.getD 0 0 = 45
    if negative ∧ bytes.length = 1 then .error .ExpectedDigit
    else
      let numeric_part := bytes.drop (if negative then 1 else 0)
      let looks_like_a_number := numeric_part.all (fun c => is_numeric c)
      if ¬looks_like_a_number then .error .ExpectedDigit
      else if ¬will_integer_fit_i64 numeric_part negative then
        .error .Overflow
      else .ok ()

def I64_MIN : Int := -(2 ^ 63)

def I64_MAX : Int := 2 ^ 63 - 1

/-- Rust `i64::checked_mul`. -/
def checked_mul (a b : Int) : Option Int :=
  if a * b < I64_MIN ∨ I64_MAX < a * b then none else some (a * b)

/-- Rust `i64::checked_add`. -/
def checked_add (a b : Int) : Option Int :=
  if a + b < I64_MIN ∨ I64_MAX < a + b then none else some (a + b)

/-- Rust `i64::checked_sub`. -/
def checked_sub (a b : Int) : Option Int :=
  if a - b < I64_MIN ∨ I64_MAX < a - b then none else some (a - b)

/-- The digit loop of `decode_int_no_sign`: state is the
`has_encountered_nonzero` flag and the accumulated `i64` result. -/
def decodeLoop (negative : Bool) :
    List Nat → Bool → Int → Except BDecodeError Int
  | [], _, result => .ok result
  | byte :: rest, has_encountered_nonzero, result =>
    if ¬is_numeric byte then .error .ExpectedDigit
    else
      -- This subtraction never underflows because of the check above.
      let digit : Nat := byte - 48
      if digit = 0 ∧ ¬has_encountered_nonzero then .error .LeadingZero
      else
        let henz := if digit = 0 then has_encountered_nonzero else true
        match checked_mul result 10 with
        | none => .error .Overflow
        | some r1 =>
          if negative then
            match checked_sub r1 (digit : Int) with
            | none => .error .Overflow
            | some r2 => decodeLoop negative rest henz r2
          else
            match checked_add r1 (digit : Int) with
            | none => .error .Overflow
            | some r2 => decodeLoop negative rest henz r2

/-- `decode_int_no_sign` (`parse_int.rs`): exact checked decode of a digit
string (leading-zero rejection, single `"0"` special case, checked
multiply-then-add, or multiply-then-subtract when negative). -/
def decode_int_no_sign (bytes : List Nat) (negative : Bool) :
    Except BDecodeError Int :=
  if bytes = [48] then .ok 0
  else decodeLoop negative bytes false 0

/-- `decode_int` (`parse_int.rs`): exact checked decode with sign
handling; rejects `-0` with `NegativeZero`. -/
def decode_int (bytes : List Nat) : Except BDecodeError Int :=
  match bytes with
  | [] => .error .UnexpectedEof
  | b :: _ =>
    if b = 45 then
      match decode_int_no_sign (bytes.drop 1) true with
      | .error e => .error e
      | .ok integer =>
        if integer = 0 then .error .NegativeZero else .ok integer
    else if 48 ≤ b ∧ b ≤ 57 then
      match decode_int_no_sign bytes false with
      | .error e => .error e
      | .ok integer => .ok integer
    else .error .ExpectedDigit

/-! ## The tokenizing parser (`bdecode` in `lib.rs`) -/

/-- `memchr::memchr`: index of the first occurrence of `needle`. -/
def memchr (needle : Nat) : List Nat → Option Nat
  | [] => none
  | b :: rest =>
    if b = needle then some 0 else (memchr needle rest).map (· + 1)

/-- The parser's mutable state at the top of the `while` loop: stack
pointer, container stack, token array, byte cursor. -/
structure ParseState where
  sp : Nat
  stack : Array StackFrame
  tokens : Array Token
  off : Nat
deriving DecidableEq, Repr

/-- One iteration of `bdecode`'s `while` loop: the dictionary-key
pre-check, the dispatch on the current byte (`d`, `l`, `i`, `e`, or a
string), and the common tail (toggling the parent dictionary's key/value
expectation, and the deferred `stack.pop()`). -/
def bdecodeStep (buf : List Nat) (st : ParseState) : Res ParseState := do
  let off := st.off
  let byte ← lgetBang buf off
  let current_frame := st.sp
  -- if we're currently parsing a dictionary, assert that every other node
  -- is a string: only a digit (string length) or `e` may follow a key slot
  if current_frame > 0 then
    let fr ← agetBang st.stack (current_frame - 1)
    let tk ← agetBang st.tokens fr.token
    if tk.token_type = .Dict ∧ fr.state = .Key then
      if ¬is_numeric byte ∧ byte ≠ 101 then
        Res.fail .ExpectedDigit
  let st1 ← (do
    match byte with
    | 100 =>  -- b'd'
      let tokU32 ← if st.tokens.size < 2 ^ 32 then pure st.tokens.size
        else Res.crash  -- `tokens.len().try_into().unwrap()`
      let new_frame := StackFrame.new tokU32 .Key
      let new_token ← liftE (Token.new off .Dict 0 0)
      pure { st with
        sp := st.sp + 1
        stack := st.stack.push new_frame
        tokens := st.tokens.push new_token
        off := off + 1 }
    | 108 =>  -- b'l'
      let tokU32 ← if st.tokens.size < 2 ^ 32 then pure st.tokens.size
        else Res.crash
      let new_frame := StackFrame.new tokU32 .Key
      let new_token ← liftE (Token.new off .List 0 0)
      pure { st with
        sp := st.sp + 1
        stack := st.stack.push new_frame
        tokens := st.tokens.push new_token
        off := off + 1 }
    | 105 =>  -- b'i'
      match memchr 101 (buf.drop off) with
      | none => Res.fail .UnexpectedEof
      | some idx =>
        let end_index := off + idx
        -- +1 here to point to the first digit, rather than `i`
        let int_buf ← lsliceBang buf (off + 1) end_index
        let _ ← liftE (check_integer int_buf)
        let new_token ← liftE (Token.new off .Int 1 1)
        let _ ← dassert (buf.getD end_index 0 = 101)
        pure { st with
          tokens := st.tokens.push new_token
          off := end_index + 1 }
    | 101 =>  -- b'e': end of list or dict
      if st.sp = 0 then Res.fail .UnexpectedEof
      else do
        let topFr ← agetBang st.stack (st.sp - 1)
        let topTk ← agetBang st.tokens topFr.token
        if topTk.token_type = .Dict ∧ topFr.state = .Value then
          -- about to parse a value associated with a key, got a terminator
          Res.fail .ExpectedValue
        else do
          let end_token ← liftE (Token.new off .End 1 0)
          let tokens1 := st.tokens.push end_token
          -- back-patch the opening token with the relative offset to the
          -- next token we'll insert
          let top := topFr.token
          let next_item := tokens1.size - top
          let topTok ← agetBang tokens1 top
          let patched ← liftE (topTok.set_next_item next_item)
          let tokens2 ← asetBang tokens1 top patched
          pure { st with
            sp := st.sp - 1
            tokens := tokens2
            off := off + 1 }
    | _ =>  -- this is the case for strings
      let str_off := off
      match memchr 58 (buf.drop off) with
      | none => Res.fail .ExpectedColon
      | some cidx =>
        let colon_index := off + cidx
        let _ ← dassert (buf.getD colon_index 0 = 58)
        let int_buf ← lsliceBang buf off colon_index
        let _ ← liftE (check_integer int_buf)
        let sl ← liftE (decode_int int_buf)
        -- `.try_into()` of the `i64` into `usize`
        let string_length ← if sl < 0 then Res.fail .Overflow
          else pure sl.toNat
        let off1 := colon_index + 1
        if off1 ≥ buf.length then Res.fail .UnexpectedEof
        else
          let remaining := buf.length - off1
          if string_length > remaining then Res.fail .UnexpectedEof
          else
            -- `off1 - str_off ≥ 2` here: `check_integer` rejected an empty
            -- length prefix, so the colon is at least one byte past
            -- `str_off` and the Nat subtraction is exact
            let header_len := off1 - str_off - 2
            let new_token ← liftE (Token.new str_off .Str 1 header_len)
            pure { st with
              tokens := st.tokens.push new_token
              off := off1 + string_length })
  -- if the *parent* is a dictionary, the next item parsed is the opposite
  let st2 ← (do
    if current_frame > 0 then
      let fr ← agetBang st1.stack (current_frame - 1)
      let tk ← agetBang st1.tokens fr.token
      if tk.token_type = .Dict then
        let stack2 ← asetBang st1.stack (current_frame - 1) fr.toggle_state
        pure { st1 with stack := stack2 }
      else pure st1
    else pure st1)
  -- deferred pop: avoids reading out of bounds in the check above
  if st2.sp < current_frame then
    pure { st2 with stack := st2.stack.pop }
  else
    pure st2

/-- `bdecode`'s `while off < buf.len()` loop, with explicit fuel (each
successful iteration advances `off` by at least one byte, so
`buf.length + 1` fuel at `off = 0` is never exhausted).  Exits with the
final state when the stack returns to empty (`break`), or at end of input
(`UnexpectedEof` if a container is still open). -/
def bdecodeGo (buf : List Nat) : Nat → ParseState → Res ParseState
  | 0, _ => .crash
  | fuel + 1, st =>
    if st.off < buf.length then
      match bdecodeStep buf st with
      | .ok st1 =>
        if st1.sp = 0 then .ok st1  -- top level node terminated: done
        else bdecodeGo buf fuel st1
      | .fail e => .fail e
      | .crash => .crash
    else
      if st.sp > 0 then .fail .UnexpectedEof else .ok st

/-- The parsed result: the input buffer and the flat token array
(`Bencode` in `lib.rs`). -/
structure Bencode where
  buf : List Nat
  tokens : Array Token
deriving DecidableEq, Repr

/-- `bdecode` (`lib.rs`): size pre-checks, the tokenizing loop, and the
final sentinel `End` token. -/
def bdecode (buf : List Nat) : Res Bencode :=
  if buf.length > Token.MAX_OFFSET then .fail .LimitExceeded
  else if buf.length = 0 then .fail .UnexpectedEof
  else
    match bdecodeGo buf (buf.length + 1) ⟨0, #[], #[], 0⟩ with
    | .ok st =>
      -- one final end token
      match Token.new st.off .End 0 0 with
      | .ok t => .ok ⟨buf, st.tokens.push t⟩
      | .error e => .fail e
    | .fail e => .fail e
    | .crash => .crash

/-! ## The node/handle layer (`lib.rs`, `iterators.rs`)

Handles are views `(buf, root_tokens, token_idx)`; `buf` and the token
array are passed explicitly to each operation.  The interior-mutable
`Cell` caches of the source (`cached_lookup`, `cached_size`) are explicit
fields, and every caching operation returns the updated handle alongside
its result.  `BencodeAny`'s own (never-read) cache cells are omitted. -/

/-- Public node type enum (`NodeType` in `lib.rs`). -/
inductive NodeType where
  | Dict
  | List
  | Str
  | Int
deriving DecidableEq, Repr

/-- A handle on a node of any type (`BencodeAny`). -/
structure BencodeAny where
  token_idx : Nat
deriving DecidableEq, Repr

/-- A bencoded list handle (`BencodeList`), with its monotonic lookup
cache and memoized size. -/
structure BencodeList where
  token_idx : Nat
  cached_lookup : Option (Nat × Nat)
  cached_size : Option Nat
deriving DecidableEq, Repr

/-- A bencoded dictionary handle (`BencodeDict`). -/
structure BencodeDict where
  token_idx : Nat
  cached_lookup : Option (Nat × Nat)
  cached_size : Option Nat
deriving DecidableEq, Repr

/-- A bencoded integer handle (`BencodeInt`). -/
structure BencodeInt where
  token_idx : Nat
deriving DecidableEq, Repr

/-- A bencoded string handle (`BencodeString`). -/
structure BencodeString where
  token_idx : Nat
deriving DecidableEq, Repr

/-- `BencodeAny::node_type`: map the token's type to the public enum; an
`End` token here is `unreachable!()` in the source (a panic). -/
def nodeTypeAt (ts : Array Token) (i : Nat) : Res NodeType := do
  let t ← agetBang ts i
  match t.token_type with
  | .Dict => pure .Dict
  | .List => pure .List
  | .Str => pure .Str
  | .Int => pure .Int
  | .End => Res.crash

def BencodeAny.node_type (ts : Array Token) (self : BencodeAny) :
    Res NodeType :=
  nodeTypeAt ts self.token_idx

/-- `BencodeAny::as_list`: succeeds iff the node is a list; the fresh
handle starts with empty caches. -/
def BencodeAny.as_list (ts : Array Token) (self : BencodeAny) :
    Res (Option BencodeList) := do
  let nt ← nodeTypeAt ts self.token_idx
  if nt ≠ .List then pure none
  else pure (some ⟨self.token_idx, none, none⟩)

/-- `BencodeAny::as_dict`. -/
def BencodeAny.as_dict (ts : Array Token) (self : BencodeAny) :
    Res (Option BencodeDict) := do
  let nt ← nodeTypeAt ts self.token_idx
  if nt ≠ .Dict then pure none
  else pure (some ⟨self.token_idx, none, none⟩)

/-- `BencodeAny::as_int`. -/
def BencodeAny.as_int (ts : Array Token) (self : BencodeAny) :
    Res (Option BencodeInt) := do
  let nt ← nodeTypeAt ts self.token_idx
  if nt ≠ .Int then pure none
  else pure (some ⟨self.token_idx⟩)

/-- `BencodeAny::as_string`. -/
def BencodeAny.as_string (ts : Array Token) (self : BencodeAny) :
    Res (Option BencodeString) := do
  let nt ← nodeTypeAt ts self.token_idx
  if nt ≠ .Str then pure none
  else pure (some ⟨self.token_idx⟩)

/-- `Bencode::get_root`: a handle on token 0 with fresh caches. -/
def Bencode.get_root (_self : Bencode) : BencodeAny := ⟨0⟩

/-- `BencodeString::as_bytes` at a token index: the payload is
`[offset + start_offset, next token's offset)`. -/
def strAsBytesAt (buf : List Nat) (ts : Array Token) (i : Nat) :
    Res (List Nat) := do
  let t ← agetBang ts i
  let t_off := t.offset
  let t_off_start := t.start_offset
  let t_next ← agetBang ts (i + 1)
  let t_next_off := t_next.offset
  let d1 ← subBang t_next_off t_off
  let size ← subBang d1 t_off_start
  lsliceBang buf (t_off + t_off_start) (t_off + t_off_start + size)

def BencodeString.as_bytes (buf : List Nat) (ts : Array Token)
    (self : BencodeString) : Res (List Nat) :=
  strAsBytesAt buf ts self.token_idx

/-- `BencodeInt::as_bytes`: the digits strictly between the `i` and the
`e`, with the source's two `debug_assert_eq!` checks. -/
def intAsBytesAt (buf : List Nat) (ts : Array Token) (i : Nat) :
    Res (List Nat) := do
  let t ← agetBang ts i
  let t_off := t.offset
  let _ ← dassert (buf.getD t_off 0 = 105)
  let t_next ← agetBang ts (i + 1)
  let t_next_off := t_next.offset
  let _ ← dassert (buf.getD (t_next_off - 1) 0 = 101)
  -- minus 2 to exclude the `e` and the first character of the next token
  let d1 ← subBang t_next_off 2
  let size ← subBang d1 t_off
  let int_start := t_off + 1
  lsliceBang buf int_start (int_start + size)

def BencodeInt.as_bytes (buf : List Nat) (ts : Array Token)
    (self : BencodeInt) : Res (List Nat) :=
  intAsBytesAt buf ts self.token_idx

/-- `BencodeInt::value`: exact checked decode of the digit span. -/
def BencodeInt.value (buf : List Nat) (ts : Array Token)
    (self : BencodeInt) : Res Int := do
  let bytes ← intAsBytesAt buf ts self.token_idx
  liftE (decode_int bytes)

/-- The `while item < index` walk of `BencodeList::get`.  The loop body
runs exactly `index - item` times, so it is structurally recursive on that
fuel (passing `fuel = index` always suffices).  `.inl size` is the
"index out of range, size discovered" exit; `.inr token` the normal one. -/
def listGetWalk (ts : Array Token) (index : Nat) :
    Nat → Nat → Nat → Res (Sum Nat Nat)
  | 0, item, token => if item < index then Res.crash else pure (.inr token)
  | fuel + 1, item, token =>
    if item < index then do
      let t ← agetBang ts token
      let token1 := token + t.next_item
      let item1 := item + 1
      let t1 ← agetBang ts token1
      -- index out of range; at least we know the size of the list now
      if t1.token_type = .End then pure (.inl item1)
      else listGetWalk ts index fuel item1 token1
    else pure (.inr token)

/-- `BencodeList::get`: returns the found element (if any) and the handle
with its updated caches. -/
def BencodeList.get (ts : Array Token) (self : BencodeList) (index : Nat) :
    Res (Option BencodeAny × BencodeList) := do
  let token := self.token_idx + 1
  let t ← agetBang ts token
  if t.token_type = .End then
    -- index out of range
    pure (none, { self with cached_size := some 0 })
  else
    let p :=
      match self.cached_lookup with
      | some (last_token, last_index) =>
        if last_index ≥ index then (last_token, last_index) else (token, 0)
      | none => (token, 0)
    match ← listGetWalk ts index index p.2 p.1 with
    | .inl size => pure (none, { self with cached_size := some size })
    | .inr token =>
      -- there's no point in caching the first item
      let self1 := if index > 0 then
        { self with cached_lookup := some (token, index) } else self
      pure (some ⟨token⟩, self1)

/-- The `while token_type ≠ End` counting walk shared by
`BencodeList::len` and `BencodeDict::len`; fuel `ts.size + 1` (used below)
suffices whenever the walk terminates at all. -/
def lenWalk (ts : Array Token) : Nat → Nat → Nat → Res Nat
  | 0, _, _ => Res.crash
  | fuel + 1, token, size => do
    let t ← agetBang ts token
    if t.token_type = .End then pure size
    else lenWalk ts fuel (token + t.next_item) (size + 1)

/-- `BencodeList::len`: memoized size, optionally resuming from the
lookup cache. -/
def BencodeList.len (ts : Array Token) (self : BencodeList) :
    Res (Nat × BencodeList) := do
  match self.cached_size with
  | some size => pure (size, self)
  | none =>
    let p :=
      match self.cached_lookup with
      | some (last_token, last_index) => (last_token, last_index)
      | none => (self.token_idx + 1, 0)
    let size ← lenWalk ts (ts.size + 1) p.1 p.2
    pure (size, { self with cached_size := some size })

/-- `BencodeDict::len`: counts immediate children, asserts the count is
even, and halves it. -/
def BencodeDict.len (ts : Array Token) (self : BencodeDict) :
    Res (Nat × BencodeDict) := do
  match self.cached_size with
  | some size => pure (size, self)
  | none =>
    let p :=
      match self.cached_lookup with
      | some (last_token, last_index) => (last_token, last_index * 2)
      | none => (self.token_idx + 1, 0)
    let item ← lenWalk ts (ts.size + 1) p.1 p.2
    -- a dictionary must contain full key-value pairs
    let _ ← dassert (item % 2 = 0)
    pure (item / 2, { self with cached_size := some (item / 2) })

/-- The `while item < index` walk of `BencodeDict::get`: assert the key is
a string, skip key then value, watching for `End` after each skip. -/
def dictGetWalk (ts : Array Token) (index : Nat) :
    Nat → Nat → Nat → Res (Sum Nat Nat)
  | 0, item, token => if item < index then Res.crash else pure (.inr token)
  | fuel + 1, item, token =>
    if item < index then do
      let t ← agetBang ts token
      if t.token_type ≠ .Str then Res.crash  -- assert_eq!(.., Str)
      else do
        -- skip the key
        let token1 := token + t.next_item
        let t1 ← agetBang ts token1
        if t1.token_type = .End then pure (.inl item)  -- out of range
        else do
          -- skip the value
          let token2 := token1 + t1.next_item
          let t2 ← agetBang ts token2
          if t2.token_type = .End then pure (.inl item)  -- out of range
          else dictGetWalk ts index fuel (item + 1) token2
    else pure (.inr token)

/-- `BencodeDict::get`: the key-value pair at the given index. -/
def BencodeDict.get (buf : List Nat) (ts : Array Token)
    (self : BencodeDict) (index : Nat) :
    Res (Option (List Nat × BencodeAny) × BencodeDict) := do
  let token := self.token_idx + 1
  let t ← agetBang ts token
  if t.token_type = .End then
    -- index out of range
    pure (none, { self with cached_size := some 0 })
  else
    -- do we have a lookup cached?
    let p :=
      match self.cached_lookup with
      | some (last_token, last_index) =>
        if last_index ≥ index then (last_token, last_index) else (token, 0)
      | none => (token, 0)
    match ← dictGetWalk ts index index p.2 p.1 with
    | .inl size => pure (none, { self with cached_size := some size })
    | .inr token => do
      let self1 := if index > 0 then
        { self with cached_lookup := some (token, index) } else self
      -- the key is always a string, so we can unwrap here
      let nt ← nodeTypeAt ts token
      if nt ≠ .Str then Res.crash  -- `.unwrap()` on `as_string()`
      else do
        let key ← strAsBytesAt buf ts token
        let tk ← agetBang ts token
        let value_token := token + tk.next_item
        pure (some (key, ⟨value_token⟩), self1)

/-- The scanning loop of `BencodeDict::find`: compare each key's raw byte
span against the target; fuel `ts.size + 1` (used below). -/
def findWalk (buf : List Nat) (ts : Array Token) (key : List Nat) :
    Nat → Nat → Res (Option BencodeAny)
  | 0, _ => Res.crash
  | fuel + 1, token => do
    let t ← agetBang ts token
    if t.token_type = .End then pure none
    else
      -- the keys should always be strings
      if t.token_type ≠ .Str then Res.crash  -- assert_eq!
      else do
        let t_off := t.offset
        let t_off_start := t.start_offset
        let t_next ← agetBang ts (token + 1)
        let t_next_off := t_next.offset
        -- compare the keys (the slice is only taken when the sizes match,
        -- mirroring the source's short-circuiting `&&`)
        let d1 ← subBang t_next_off t_off
        let size ← subBang d1 t_off_start
        let matched ← (if size = key.length then do
            let s ← lsliceBang buf (t_off + t_off_start)
              (t_off + t_off_start + size)
            pure (decide (key = s))
          else pure false)
        -- skip key
        let token1 := token + t.next_item
        let t1 ← agetBang ts token1
        if t1.token_type = .End then Res.crash  -- assert_ne!
        else
          if matched then pure (some ⟨token1⟩)  -- return the value
          else
            -- skip value
            findWalk buf ts key fuel (token1 + t1.next_item)

/-- `BencodeDict::find`: unconditional linear scan from the start. -/
def BencodeDict.find (buf : List Nat) (ts : Array Token)
    (self : BencodeDict) (key : List Nat) : Res (Option BencodeAny) :=
  findWalk buf ts key (ts.size + 1) (self.token_idx + 1)

/-- Iterator over list items (`BencodeListIter`); `num_traversed` is a
`u32` in the source, hence the `% 2^32` on increment. -/
structure BencodeListIter where
  token_idx : Nat
  num_traversed : Nat
  precalculated_size : Option Nat
deriving DecidableEq, Repr

/-- `BencodeList::iter`: starts at the first child, seeding the
precalculated size from the memoized one (`size as u32`). -/
def BencodeList.iter (self : BencodeList) : BencodeListIter :=
  ⟨self.token_idx + 1, 0,
    self.cached_size.map (fun size => size % 2 ^ 32)⟩

/-- `BencodeListIter::next`. -/
def BencodeListIter.next (ts : Array Token) (it : BencodeListIter) :
    Res (Option BencodeAny × BencodeListIter) := do
  let t ← agetBang ts it.token_idx
  if t.token_type = .End then pure (none, it)
  else
    pure (some ⟨it.token_idx⟩,
      { it with
        token_idx := it.token_idx + t.next_item
        num_traversed := (it.num_traversed + 1) % 2 ^ 32 })

/-- `BencodeListIter::size_hint`, with its
`debug_assert!(num_traversed <= size)` modelled as a crash (on release
builds the subtraction would wrap instead). -/
def BencodeListIter.size_hint (it : BencodeListIter) :
    Res (Nat × Option Nat) :=
  match it.precalculated_size with
  | some size =>
    if it.num_traversed ≤ size then .ok (size - it.num_traversed, some size)
    else .crash
  | none => .ok (0, none)

/-! ## Spec-level helper definitions -/

/-- Bytes of a string literal (ASCII), for readable concrete inputs. -/
def strBytes (s : String) : List Nat := s.data.map Char.toNat

/-- Numeric value of an ASCII digit string (most significant first):
the mathematical reading `d₁d₂…dₖ ↦ Σ dᵢ·10^(k-i)`. -/
def natOfDigits (l : List Nat) : Nat :=
  l.foldl (fun a b => a * 10 + (b - 48)) 0

/-- All bytes are ASCII digits. -/
def allDigits (l : List Nat) : Prop := ∀ b ∈ l, 48 ≤ b ∧ b ≤ 57

instance (l : List Nat) : Decidable (allDigits l) := by
  unfold allDigits; infer_instance

/-- ASCII digits of `n`, most significant first (fuelled so that it
reduces in the kernel; `n + 1` fuel always suffices since `n / 10 < n`). -/
def natDigitsAux : Nat → Nat → List Nat
  | 0, _ => []
  | fuel + 1, n =>
    if n < 10 then [48 + n]
    else natDigitsAux fuel (n / 10) ++ [48 + n % 10]

/-- Canonical ASCII decimal digits of a natural number. -/
def natDigits (n : Nat) : List Nat := natDigitsAux (n + 1) n

/-- Canonical decimal rendering of an integer (`-` followed by the digits
of the magnitude when negative). -/
def renderInt (n : Int) : List Nat :=
  if n < 0 then 45 :: natDigits n.natAbs else natDigits n.toNat

/-- The bencoded integer literal `i<n>e`. -/
def intBuf (n : Int) : List Nat := 105 :: renderInt n ++ [101]

/-- Token array of a parse result (empty on error/crash). -/
def resTokens : Res Bencode → Array Token
  | .ok b => b.tokens
  | _ => #[]

def Res.isOk : Res α → Bool
  | .ok _ => true
  | _ => false

/-- Node type of the root of a parsed buffer. -/
def rootNodeType (buf : List Nat) : Res NodeType := do
  let b ← bdecode buf
  BencodeAny.node_type b.tokens b.get_root

/-- Parse a buffer, refine the root into an integer node, read its value:
the composition exercised by the claims about integer round-trips. -/
def rootIntValue (buf : List Nat) : Res Int := do
  let b ← bdecode buf
  match ← BencodeAny.as_int b.tokens b.get_root with
  | none => Res.crash
  | some i => BencodeInt.value buf b.tokens i

/-! ### Concrete inputs and call sequences used by the claims -/

/-- `"l1:a1:b1:ce"`: a three-element list. -/
def c1buf : List Nat := strBytes "l1:a1:b1:ce"

/-- The C1 call sequence on the three-element list: `get(2)`, `get(1)`
(which corrupts the monotonic cache through the inverted resume
condition), `len()` (now memoizing the wrong size 2), then a full
iteration followed by `size_hint()`, whose
`debug_assert!(num_traversed <= size)` fails. -/
def c1scenario : Res (Nat × Option Nat) := do
  let b ← bdecode c1buf
  match ← BencodeAny.as_list b.tokens b.get_root with
  | none => Res.crash
  | some l0 => do
    let r2 ← BencodeList.get b.tokens l0 2
    let r1 ← BencodeList.get b.tokens r2.2 1
    let rl ← BencodeList.len b.tokens r1.2
    let it0 := BencodeList.iter rl.2
    let s1 ← BencodeListIter.next b.tokens it0
    let s2 ← BencodeListIter.next b.tokens s1.2
    let s3 ← BencodeListIter.next b.tokens s2.2
    BencodeListIter.size_hint s3.2

/-- The `len()` result inside the C1 sequence (after `get(2)`, `get(1)`). -/
def c1lenAfter : Res Nat := do
  let b ← bdecode c1buf
  match ← BencodeAny.as_list b.tokens b.get_root with
  | none => Res.crash
  | some l0 => do
    let r2 ← BencodeList.get b.tokens l0 2
    let r1 ← BencodeList.get b.tokens r2.2 1
    let rl ← BencodeList.len b.tokens r1.2
    pure rl.1

/-- `len()` on a fresh handle of the same list. -/
def c1lenFresh : Res Nat := do
  let b ← bdecode c1buf
  match ← BencodeAny.as_list b.tokens b.get_root with
  | none => Res.crash
  | some l0 => do
    let rl ← BencodeList.len b.tokens l0
    pure rl.1

/-- `"l1:a1:be"`: a two-element list. -/
def c2buf : List Nat := strBytes "l1:a1:be"

/-- Token array of the parsed two-element list. -/
def c2tokens : Array Token := resTokens (bdecode c2buf)

/-- A fresh handle on the root list of `c2buf`. -/
def c2freshList : BencodeList := ⟨0, none, none⟩

/-- `get(0)` on a fresh handle. -/
def c2getFresh : Res (Option BencodeAny) := do
  let r ← BencodeList.get c2tokens c2freshList 0
  pure r.1

/-- `get(1)` then `get(0)` on the same handle. -/
def c2getAfter : Res (Option BencodeAny) := do
  let r1 ← BencodeList.get c2tokens c2freshList 1
  let r0 ← BencodeList.get c2tokens r1.2 0
  pure r0.1

/-- `"d1:ai1e1:bi2ee"`: the dictionary `{a: 1, b: 2}`. -/
def c3buf : List Nat := strBytes "d1:ai1e1:bi2ee"

def c3tokens : Array Token := resTokens (bdecode c3buf)

def c3freshDict : BencodeDict := ⟨0, none, none⟩

/-- Dict `get(0)` on a fresh handle. -/
def c3getFresh : Res (Option (List Nat × BencodeAny)) := do
  let r ← BencodeDict.get c3buf c3tokens c3freshDict 0
  pure r.1

/-- Dict `get(1)` then `get(0)` on the same handle. -/
def c3getAfter : Res (Option (List Nat × BencodeAny)) := do
  let r1 ← BencodeDict.get c3buf c3tokens c3freshDict 1
  let r0 ← BencodeDict.get c3buf c3tokens r1.2 0
  pure r0.1

/-- `"4:spam"`: a single bencoded string. -/
def c8buf : List Nat := strBytes "4:spam"

def c8tokens : Array Token := resTokens (bdecode c8buf)

/-- Numeric part of an integer literal: the bytes after the optional
leading `-` (as split off by `check_integer`). -/
def numericPart (l : List Nat) : List Nat :=
  l.drop (if l.getD 0 0 = 45 then 1 else 0)

/-! ## Container balance and parse-loop invariant vocabulary -/

/-- Weight of a token type in the container-balance argument: an opening
`Dict` or `List` record counts +1, a closing `End` record counts −1, the
leaf records count 0. -/
def wt : TokenType → Int
  | .Dict => 1
  | .List => 1
  | .End => -1
  | _ => 0

/-- Sum of `wt` over `count` token records starting at index `a`. -/
def balGo (ts : Array Token) : Nat → Nat → Int
  | 0, _ => 0
  | n + 1, a => wt (ts.getD a default).token_type + balGo ts n (a + 1)

/-- Container balance of the token index range `[a, b)`. -/
def bal (ts : Array Token) (a b : Nat) : Int := balGo ts (b - a) a

/-- The token type opens a container. -/
def isContainer (t : TokenType) : Prop := t = .Dict ∨ t = .List

/-- The container record at index `j` spans, via its `next_item` field,
exactly its own body and closing `End` record: `next_item` is at least 2,
stays in bounds, the record at `j + next_item - 1` is an `End`, the
balance of the spanned range is 0, and every proper prefix of the range
keeps the balance positive (so the `End` at `j + next_item - 1` closes
this container and not an inner or outer one). -/
def spansClosed (ts : Array Token) (j : Nat) : Prop :=
  2 ≤ (ts.getD j default).next_item ∧
  j + (ts.getD j default).next_item ≤ ts.size ∧
  (ts.getD (j + (ts.getD j default).next_item - 1) default).token_type =
    .End ∧
  bal ts j (j + (ts.getD j default).next_item) = 0 ∧
  ∀ m, j < m → m < j + (ts.getD j default).next_item → 0 < bal ts j m

/-- What the tokenizer guarantees about a `Str` record at index `j`,
relative to the byte cursor (`cursor` is the current read position, which
is where the next record's offset will be): the `header + 1` bytes at the
record's offset are ASCII digits (the length prefix), the byte after them
is the `':'` separator, and the next record's offset (or the cursor, for
the newest record) sits exactly at the end of the declared payload, inside
the buffer. -/
def strFact (buf : List Nat) (ts : Array Token) (cursor : Nat) (j : Nat) :
    Prop :=
  (ts.getD j default).token_type = .Str →
  (∀ i, (ts.getD j default).offset ≤ i →
      i < (ts.getD j default).offset + (ts.getD j default).header + 1 →
      48 ≤ buf.getD i 0 ∧ buf.getD i 0 ≤ 57) ∧
  buf.getD ((ts.getD j default).offset + (ts.getD j default).header + 1)
      0 = 58 ∧
  (if j + 1 < ts.size then (ts.getD (j + 1) default).offset else cursor) =
    (ts.getD j default).offset + (ts.getD j default).header + 2 +
      natOfDigits ((buf.drop (ts.getD j default).offset).take
        ((ts.getD j default).header + 1)) ∧
  (if j + 1 < ts.size then (ts.getD (j + 1) default).offset else cursor) ≤
    buf.length

/-- Token index of stack frame `i`. -/
def frameTok (st : ParseState) (i : Nat) : Nat :=
  (st.stack.getD i default).token

/-- Right end of the token region owned by stack frame `i`: the next
frame's token, or the end of the token array for the innermost frame. -/
def regionEnd (st : ParseState) (i : Nat) : Nat :=
  if i + 1 < st.sp then frameTok st (i + 1) else st.tokens.size

/-- The `bdecode` loop invariant: the stack pointer mirrors the stack
size, the token count never exceeds the cursor, the cursor stays in the
buffer, every stack frame names an in-bounds, still-open (`next_item = 0`)
container record, frame token indices strictly increase, each frame's
token region is balance-0 with nonnegative partial balances, every
container record not named by a frame is fully closed (`spansClosed`),
and every `Str` record satisfies `strFact`. -/
structure ParseInv (buf : List Nat) (st : ParseState) : Prop where
  hsp : st.sp = st.stack.size
  htok : st.tokens.size ≤ st.off
  hoff : st.off ≤ buf.length
  hframes : ∀ i, i < st.sp →
    frameTok st i < st.tokens.size ∧
    isContainer (st.tokens.getD (frameTok st i) default).token_type ∧
    (st.tokens.getD (frameTok st i) default).next_item = 0
  hmono : ∀ i, i + 1 < st.sp → frameTok st i < frameTok st (i + 1)
  hreg : ∀ i, i < st.sp →
    bal st.tokens (frameTok st i + 1) (regionEnd st i) = 0 ∧
    ∀ m, frameTok st i < m → m ≤ regionEnd st i →
      0 ≤ bal st.tokens (frameTok st i + 1) m
  hclosed : ∀ j, j < st.tokens.size →
    isContainer (st.tokens.getD j default).token_type →
    (∃ i, i < st.sp ∧ frameTok st i = j) ∨ spansClosed st.tokens j
  hstr : ∀ j, j < st.tokens.size → strFact buf st.tokens st.off j

/-- The body of `bdecodeStep` after the dictionary-key pre-check (the
dispatch on the current byte and the common tail), split out for the
invariant proof; it is definitionally equal to the corresponding sub-term
of `bdecodeStep`, which the proof of `bdecodeStep_inv` establishes with a
`change`. -/
def bdecodeStepCore (buf : List Nat) (st : ParseState) (byte : Nat) :
    Res ParseState := do
  let off := st.off
  let current_frame := st.sp
  let st1 ← (do
    match byte with
    | 100 =>
      let tokU32 ← if st.tokens.size < 2 ^ 32 then pure st.tokens.size
        else Res.crash
      let new_frame := StackFrame.new tokU32 .Key
      let new_token ← liftE (Token.new off .Dict 0 0)
      pure { st with
        sp := st.sp + 1
        stack := st.stack.push new_frame
        tokens := st.tokens.push new_token
        off := off + 1 }
    | 108 =>
      let tokU32 ← if st.tokens.size < 2 ^ 32 then pure st.tokens.size
        else Res.crash
      let new_frame := StackFrame.new tokU32 .Key
      let new_token ← liftE (Token.new off .List 0 0)
      pure { st with
        sp := st.sp + 1
        stack := st.stack.push new_frame
        tokens := st.tokens.push new_token
        off := off + 1 }
    | 105 =>
      match memchr 101 (buf.drop off) with
      | none => Res.fail .UnexpectedEof
      | some idx =>
        let end_index := off + idx
        let int_buf ← lsliceBang buf (off + 1) end_index
        let _ ← liftE (check_integer int_buf)
        let new_token ← liftE (Token.new off .Int 1 1)
        let _ ← dassert (buf.getD end_index 0 = 101)
        pure { st with
          tokens := st.tokens.push new_token
          off := end_index + 1 }
    | 101 =>
      if st.sp = 0 then Res.fail .UnexpectedEof
      else do
        let topFr ← agetBang st.stack (st.sp - 1)
        let topTk ← agetBang st.tokens topFr.token
        if topTk.token_type = .Dict ∧ topFr.state = .Value then
          Res.fail .ExpectedValue
        else do
          let end_token ← liftE (Token.new off .End 1 0)
          let tokens1 := st.tokens.push end_token
          let top := topFr.token
          let next_item := tokens1.size - top
          let topTok ← agetBang tokens1 top
          let patched ← liftE (topTok.set_next_item next_item)
          let tokens2 ← asetBang tokens1 top patched
          pure { st with
            sp := st.sp - 1
            tokens := tokens2
            off := off + 1 }
    | _ =>
      let str_off := off
      match memchr 58 (buf.drop off) with
      | none => Res.fail .ExpectedColon
      | some cidx =>
        let colon_index := off + cidx
        let _ ← dassert (buf.getD colon_index 0 = 58)
        let int_buf ← lsliceBang buf off colon_index
        let _ ← liftE (check_integer int_buf)
        let sl ← liftE (decode_int int_buf)
        let string_length ← if sl < 0 then Res.fail .Overflow
          else pure sl.toNat
        let off1 := colon_index + 1
        if off1 ≥ buf.length then Res.fail .UnexpectedEof
        else
          let remaining := buf.length - off1
          if string_length > remaining then Res.fail .UnexpectedEof
          else
            let header_len := off1 - str_off - 2
            let new_token ← liftE (Token.new str_off .Str 1 header_len)
            pure { st with
              tokens := st.tokens.push new_token
              off := off1 + string_length })
  let st2 ← (do
    if current_frame > 0 then
      let fr ← agetBang st1.stack (current_frame - 1)
      let tk ← agetBang st1.tokens fr.token
      if tk.token_type = .Dict then
        let stack2 ← asetBang st1.stack (current_frame - 1) fr.toggle_state
        pure { st1 with stack := stack2 }
      else pure st1
    else pure st1)
  if st2.sp < current_frame then
    pure { st2 with stack := st2.stack.pop }
  else
    pure st2

/-! # Theorems -/

set_option maxRecDepth 8000

/-! ## Arithmetic of digit strings -/

theorem natOfDigits_acc (l : List Nat) :
    ∀ a : Nat, l.foldl (fun x b => x * 10 + (b - 48)) a =
      a * 10 ^ l.length + natOfDigits l := by
  induction l with
  | nil => intro a; simp [natOfDigits]
  | cons b l ih =>
    intro a
    simp only [List.foldl_cons, natOfDigits, List.length_cons]
    rw [ih (a * 10 + (b - 48)), ih (0 * 10 + (b - 48))]
    ring

theorem natOfDigits_cons (b : Nat) (l : List Nat) :
    natOfDigits (b :: l) = (b - 48) * 10 ^ l.length + natOfDigits l := by
  simp only [natOfDigits, List.foldl_cons]
  rw [show (0 : Nat) * 10 + (b - 48) = b - 48 by ring]
  exact natOfDigits_acc l (b - 48)

theorem natOfDigits_append (xs ys : List Nat) :
    natOfDigits (xs ++ ys) =
      natOfDigits xs * 10 ^ ys.length + natOfDigits ys := by
  simp only [natOfDigits, List.foldl_append]
  exact natOfDigits_acc ys _

theorem natOfDigits_lt (l : List Nat) (h : allDigits l) :
    natOfDigits l < 10 ^ l.length := by
  induction l with
  | nil => simp [natOfDigits]
  | cons b l ih =>
    have hb : b - 48 ≤ 9 := by
      have := h b (List.mem_cons_self b l); omega
    have hl : natOfDigits l < 10 ^ l.length :=
      ih (fun x hx => h x (List.mem_cons_of_mem b hx))
    rw [natOfDigits_cons]
    have hp : 0 < 10 ^ l.length := Nat.pos_pow_of_pos _ (by norm_num)
    calc (b - 48) * 10 ^ l.length + natOfDigits l
        ≤ 9 * 10 ^ l.length + natOfDigits l :=
          Nat.add_le_add_right (Nat.mul_le_mul_right _ hb) _
      _ < 9 * 10 ^ l.length + 10 ^ l.length := Nat.add_lt_add_left hl _
      _ = 10 ^ (b :: l).length := by
          simp [List.length_cons, pow_succ]; ring

theorem natOfDigits_ge_of_head (b : Nat) (l : List Nat) (hb : 49 ≤ b) :
    10 ^ l.length ≤ natOfDigits (b :: l) := by
  rw [natOfDigits_cons]
  have : 1 ≤ b - 48 := by omega
  calc 10 ^ l.length = 1 * 10 ^ l.length := by ring
    _ ≤ (b - 48) * 10 ^ l.length := Nat.mul_le_mul_right _ this
    _ ≤ (b - 48) * 10 ^ l.length + natOfDigits l := Nat.le_add_right _ _

/-- The first-difference comparison of `will_integer_fit_i64` agrees with
the numeric comparison on equal-length digit strings. -/
theorem fitZip_spec (xs : List Nat) :
    ∀ ys : List Nat, xs.length = ys.length → allDigits xs → allDigits ys →
      fitZip xs ys =
        (if natOfDigits xs < natOfDigits ys then some true
         else if natOfDigits ys < natOfDigits xs then some false
         else none) := by
  induction xs with
  | nil =>
    intro ys hlen _ _
    have : ys = [] := List.eq_nil_of_length_eq_zero hlen.symm
    subst this
    simp [fitZip, natOfDigits]
  | cons x xs ih =>
    intro ys hlen hx hy
    match ys with
    | [] => simp at hlen
    | y :: ys =>
      have hlen' : xs.length = ys.length := by
        simpa using hlen
      have hx1 : 48 ≤ x ∧ x ≤ 57 := hx x (List.mem_cons_self _ _)
      have hy1 : 48 ≤ y ∧ y ≤ 57 := hy y (List.mem_cons_self _ _)
      have hx' : allDigits xs := fun b hb => hx b (List.mem_cons_of_mem _ hb)
      have hy' : allDigits ys := fun b hb => hy b (List.mem_cons_of_mem _ hb)
      have hxlt := natOfDigits_lt xs hx'
      have hylt := natOfDigits_lt ys hy'
      rw [natOfDigits_cons, natOfDigits_cons, fitZip]
      by_cases hgt : x > y
      · -- first digit strictly larger: numerically larger
        have : (y - 48) * 10 ^ ys.length + natOfDigits ys <
            (x - 48) * 10 ^ xs.length + natOfDigits xs := by
          rw [hlen']
          have h1 : (y - 48) + 1 ≤ x - 48 := by omega
          calc (y - 48) * 10 ^ ys.length + natOfDigits ys
              < (y - 48) * 10 ^ ys.length + 10 ^ ys.length :=
                Nat.add_lt_add_left hylt _
            _ = ((y - 48) + 1) * 10 ^ ys.length := by ring
            _ ≤ (x - 48) * 10 ^ ys.length :=
                Nat.mul_le_mul_right _ h1
            _ ≤ (x - 48) * 10 ^ ys.length + natOfDigits xs :=
                Nat.le_add_right _ _
        rw [if_pos hgt, if_neg (by omega), if_pos this]
      · by_cases hlt : x < y
        · have : (x - 48) * 10 ^ xs.length + natOfDigits xs <
              (y - 48) * 10 ^ ys.length + natOfDigits ys := by
            rw [hlen']
            have h1 : (x - 48) + 1 ≤ y - 48 := by omega
            calc (x - 48) * 10 ^ ys.length + natOfDigits xs
                < (x - 48) * 10 ^ ys.length + 10 ^ ys.length := by
                  rw [← hlen']; exact Nat.add_lt_add_left hxlt _
              _ = ((x - 48) + 1) * 10 ^ ys.length := by ring
              _ ≤ (y - 48) * 10 ^ ys.length :=
                  Nat.mul_le_mul_right _ h1
              _ ≤ (y - 48) * 10 ^ ys.length + natOfDigits ys :=
                  Nat.le_add_right _ _
          rw [if_neg (by omega), if_pos hlt, if_pos this]
        · -- equal first digits: defer to the tails
          have hxy : x = y := by omega
          subst hxy
          rw [if_neg (by omega), if_neg (by omega), ih ys hlen' hx' hy',
            hlen']
          by_cases h1 : natOfDigits xs < natOfDigits ys
          · rw [if_pos h1, if_pos (by exact Nat.add_lt_add_left h1 _)]
          · rw [if_neg h1]
            by_cases h2 : natOfDigits ys < natOfDigits xs
            · rw [if_pos h2, if_neg (by omega),
                if_pos (by exact Nat.add_lt_add_left h2 _)]
            · rw [if_neg h2, if_neg (by omega), if_neg (by omega)]

theorem natOfDigits_MAX_BYTES_COMMON :
    natOfDigits MAX_BYTES_COMMON = 922337203685477580 := by decide

theorem will_fit_of_le_18 (l : List Nat) (neg : Bool)
    (h : l.length ≤ 18) : will_integer_fit_i64 l neg = true := by
  unfold will_integer_fit_i64
  simp only []
  rw [if_neg (by omega), if_pos h]

theorem will_fit_of_gt_20 (l : List Nat) (neg : Bool)
    (h : 20 < l.length) : will_integer_fit_i64 l neg = false := by
  unfold will_integer_fit_i64
  simp only []
  rw [if_pos h]

/-- On 19- and 20-digit strings the coarse check accepts exactly when the
value of the *first 19 digits* is at most `i64::MAX` (plus one when
negative); a 20th digit is never examined. -/
theorem will_fit_of_19_20 (l : List Nat) (neg : Bool)
    (h : l.length = 19 ∨ l.length = 20) (hd : allDigits l) :
    will_integer_fit_i64 l neg =
      decide (natOfDigits (l.take 19) ≤
        9223372036854775807 + (if neg then 1 else 0)) := by
  have h18lt : 18 < l.length := by omega
  obtain ⟨d, hd18⟩ : ∃ d, l.get? 18 = some d :=
    ⟨l.get ⟨18, h18lt⟩, List.get?_eq_get h18lt⟩
  have hd18' : l[18]? = some d := by
    rw [← List.get?_eq_getElem?]; exact hd18
  have hdl : d ∈ l := List.get?_mem hd18
  have hdd : 48 ≤ d ∧ d ≤ 57 := hd d hdl
  have hgetD : l.getD 18 0 = d := by
    simp [List.getD_eq_getElem?_getD, hd18']
  have htake19 : l.take 19 = l.take 18 ++ [d] := by
    rw [List.take_succ, hd18']; rfl
  have hlen18 : (l.take 18).length = 18 := by
    rw [List.length_take]; omega
  have hdig18 : allDigits (l.take 18) :=
    fun b hb => hd b (List.take_subset _ _ hb)
  have hMdig : allDigits MAX_BYTES_COMMON := by decide
  have hMlen : (MAX_BYTES_COMMON).length = 18 := by decide
  have hzip := fitZip_spec (l.take 18) MAX_BYTES_COMMON
    (by rw [hlen18, hMlen]) hdig18 hMdig
  rw [natOfDigits_MAX_BYTES_COMMON] at hzip
  have hval : natOfDigits (l.take 19) =
      natOfDigits (l.take 18) * 10 + (d - 48) := by
    rw [htake19, natOfDigits_append]
    simp [natOfDigits_cons, natOfDigits]
  unfold will_integer_fit_i64
  simp only []
  rw [if_neg (by omega), if_neg (by omega), hgetD, hval]
  set A := natOfDigits (l.take 18) with hA
  rcases Nat.lt_trichotomy A 922337203685477580 with h1 | h1 | h1
  · rw [hzip, if_pos h1]
    have harith : A * 10 + (d - 48) ≤
        9223372036854775807 + (if neg = true then 1 else 0) := by
      rcases hdd with ⟨_, _⟩
      cases neg <;> norm_num <;> omega
    rw [decide_eq_true harith]
  · rw [hzip, if_neg (by omega), if_neg (by omega)]
    have harith : (d ≤ 55 + (if neg = true then 1 else 0)) ↔
        (A * 10 + (d - 48) ≤
          9223372036854775807 + (if neg = true then 1 else 0)) := by
      rcases hdd with ⟨_, _⟩
      cases neg <;> norm_num <;> omega
    exact decide_eq_decide.mpr harith
  · rw [hzip, if_neg (by omega), if_pos h1]
    have harith : ¬(A * 10 + (d - 48) ≤
        9223372036854775807 + (if neg = true then 1 else 0)) := by
      rcases hdd with ⟨_, _⟩
      cases neg <;> norm_num <;> omega
    rw [decide_eq_false harith]

/-! ## The exact checked decoder -/

theorem checked_mul_some {a b c : Int} (h : checked_mul a b = some c) :
    c = a * b ∧ I64_MIN ≤ c ∧ c ≤ I64_MAX := by
  unfold checked_mul at h
  split at h
  · simp at h
  · next hr => simp only [Option.some.injEq] at h; subst h; omega

theorem checked_add_some {a b c : Int} (h : checked_add a b = some c) :
    c = a + b ∧ I64_MIN ≤ c ∧ c ≤ I64_MAX := by
  unfold checked_add at h
  split at h
  · simp at h
  · next hr => simp only [Option.some.injEq] at h; subst h; omega

theorem checked_sub_some {a b c : Int} (h : checked_sub a b = some c) :
    c = a - b ∧ I64_MIN ≤ c ∧ c ≤ I64_MAX := by
  unfold checked_sub at h
  split at h
  · simp at h
  · next hr => simp only [Option.some.injEq] at h; subst h; omega

theorem checked_mul_of (a b : Int) (h1 : I64_MIN ≤ a * b)
    (h2 : a * b ≤ I64_MAX) : checked_mul a b = some (a * b) := by
  unfold checked_mul
  rw [if_neg (by omega)]

theorem checked_add_of (a b : Int) (h1 : I64_MIN ≤ a + b)
    (h2 : a + b ≤ I64_MAX) : checked_add a b = some (a + b) := by
  unfold checked_add
  rw [if_neg (by omega)]

theorem checked_sub_of (a b : Int) (h1 : I64_MIN ≤ a - b)
    (h2 : a - b ≤ I64_MAX) : checked_sub a b = some (a - b) := by
  unfold checked_sub
  rw [if_neg (by omega)]

/-- Whatever loop state it starts from, a successful run of the positive
digit loop consumed only digits and computed `r·10^k + value`. -/
theorem decodeLoop_pos_inv (l : List Nat) :
    ∀ henz : Bool, ∀ r v : Int, decodeLoop false l henz r = .ok v →
      allDigits l ∧ v = r * 10 ^ l.length + (natOfDigits l : Int) := by
  induction l with
  | nil =>
    intro henz r v h
    simp only [decodeLoop, Except.ok.injEq] at h
    subst h
    refine ⟨by intro b hb; simp at hb, by simp [natOfDigits]⟩
  | cons b l ih =>
    intro henz r v h
    unfold decodeLoop at h
    split at h
    · simp at h
    next hnum =>
      have hb : 48 ≤ b ∧ b ≤ 57 := by
        simp [is_numeric] at hnum; omega
      split at h
      next hm =>
        dsimp only [] at h
        split at h <;> simp at h
      next r1 hm =>
        split at h
        next hfalse => exact absurd hfalse (by simp)
        next =>
          dsimp only [] at h
          split at h
          · simp at h
          next hz =>
            split at h
            next ha => simp at h
            next r2 ha =>
              obtain ⟨hd, hv⟩ := ih _ _ _ h
              obtain ⟨he1, _, _⟩ := checked_mul_some hm
              obtain ⟨he2, _, _⟩ := checked_add_some ha
              refine ⟨?_, ?_⟩
              · intro x hx
                rcases List.mem_cons.mp hx with rfl | hx
                · exact hb
                · exact hd x hx
              · subst he1 he2 hv
                rw [natOfDigits_cons, List.length_cons]
                push_cast
                ring

/-- Negative counterpart of `decodeLoop_pos_inv`. -/
theorem decodeLoop_neg_inv (l : List Nat) :
    ∀ henz : Bool, ∀ r v : Int, decodeLoop true l henz r = .ok v →
      allDigits l ∧ v = r * 10 ^ l.length - (natOfDigits l : Int) := by
  induction l with
  | nil =>
    intro henz r v h
    simp only [decodeLoop, Except.ok.injEq] at h
    subst h
    refine ⟨by intro b hb; simp at hb, by simp [natOfDigits]⟩
  | cons b l ih =>
    intro henz r v h
    unfold decodeLoop at h
    split at h
    · simp at h
    next hnum =>
      have hb : 48 ≤ b ∧ b ≤ 57 := by
        simp [is_numeric] at hnum; omega
      split at h
      next hm =>
        dsimp only [] at h
        split at h <;> simp at h
      next r1 hm =>
        split at h
        next =>
          dsimp only [] at h
          split at h
          · simp at h
          next hz =>
            split at h
            next hs => simp at h
            next r2 hs =>
              obtain ⟨hd, hv⟩ := ih _ _ _ h
              obtain ⟨he1, _, _⟩ := checked_mul_some hm
              obtain ⟨he2, _, _⟩ := checked_sub_some hs
              refine ⟨?_, ?_⟩
              · intro x hx
                rcases List.mem_cons.mp hx with rfl | hx
                · exact hb
                · exact hd x hx
              · subst he1 he2 hv
                rw [natOfDigits_cons, List.length_cons]
                push_cast
                ring
        next htrue => exact absurd (rfl : true = true) htrue

/-- The accumulated value stays inside the `i64` range as soon as one
digit has been consumed. -/
theorem decodeLoop_range (neg : Bool) (l : List Nat) :
    ∀ henz : Bool, ∀ r v : Int, decodeLoop neg l henz r = .ok v →
      l = [] ∧ v = r ∨ I64_MIN ≤ v ∧ v ≤ I64_MAX := by
  induction l with
  | nil =>
    intro henz r v h
    simp only [decodeLoop, Except.ok.injEq] at h
    exact Or.inl ⟨rfl, h.symm⟩
  | cons b l ih =>
    intro henz r v h
    unfold decodeLoop at h
    split at h
    · simp at h
    next hnum =>
      split at h
      next hm =>
        dsimp only [] at h
        split at h <;> simp at h
      next r1 hm =>
        split at h
        next =>
          -- the `negative` branch taken (checked_sub)
          dsimp only [] at h
          split at h
          · simp at h
          next hz =>
            split at h
            next hs => simp at h
            next r2 hs =>
              obtain ⟨_, h1, h2⟩ := checked_sub_some hs
              rcases ih _ _ _ h with ⟨_, rfl⟩ | hr
              · exact Or.inr ⟨h1, h2⟩
              · exact Or.inr hr
        next =>
          -- the non-negative branch (checked_add)
          dsimp only [] at h
          split at h
          · simp at h
          next hz =>
            split at h
            next ha => simp at h
            next r2 ha =>
              obtain ⟨_, h1, h2⟩ := checked_add_some ha
              rcases ih _ _ _ h with ⟨_, rfl⟩ | hr
              · exact Or.inr ⟨h1, h2⟩
              · exact Or.inr hr

/-- A successful run started with the leading-zero latch unset begins
with a nonzero digit. -/
theorem decodeLoop_head_nonzero (neg : Bool) (b : Nat) (l : List Nat)
    (r v : Int) (h : decodeLoop neg (b :: l) false r = .ok v) :
    49 ≤ b ∧ b ≤ 57 := by
  unfold decodeLoop at h
  split at h
  · simp at h
  next hnum =>
    have hb : 48 ≤ b ∧ b ≤ 57 := by
      simp [is_numeric] at hnum; omega
    split at h
    next hm =>
      dsimp only [] at h
      split at h <;> simp at h
    next r1 hm =>
      split at h
      next =>
        dsimp only [] at h
        split at h
        · simp at h
        next hz =>
          have hb48 : ¬(b - 48 = 0) := fun hc => hz ⟨hc, by simp⟩
          exact ⟨by omega, hb.2⟩
      next =>
        dsimp only [] at h
        split at h
        · simp at h
        next hz =>
          have hb48 : ¬(b - 48 = 0) := fun hc => hz ⟨hc, by simp⟩
          exact ⟨by omega, hb.2⟩

theorem is_numeric_true_of (b : Nat) (h : 48 ≤ b ∧ b ≤ 57) :
    is_numeric b = true := by
  simp [is_numeric]; omega

theorem decodeLoop_pos_of (l : List Nat) :
    ∀ (r : Int) (henz : Bool), allDigits l →
      (henz = false → 49 ≤ l.headD 49) → 0 ≤ r →
      r * 10 ^ l.length + (natOfDigits l : Int) ≤ I64_MAX →
      decodeLoop false l henz r =
        .ok (r * 10 ^ l.length + (natOfDigits l : Int)) := by
  induction l with
  | nil =>
    intro r henz _ _ _ _
    simp [decodeLoop, natOfDigits]
  | cons b l ih =>
    intro r henz hd hlz hr hle
    have hb : 48 ≤ b ∧ b ≤ 57 := hd b (List.mem_cons_self _ _)
    have hd' : allDigits l := fun x hx => hd x (List.mem_cons_of_mem _ hx)
    have hnum := is_numeric_true_of b hb
    have hdge : (0 : Int) ≤ ((b - 48 : Nat) : Int) := by positivity
    have hdle : ((b - 48 : Nat) : Int) ≤ 9 := by
      have : b - 48 ≤ 9 := by omega
      exact_mod_cast Nat.cast_le.mpr this
    have hpow : (1 : Int) ≤ 10 ^ l.length := by
      have := pow_pos (show (0 : Int) < 10 by norm_num) l.length
      omega
    have hnn : (0 : Int) ≤ (natOfDigits l : Int) := by positivity
    have htot : r * 10 ^ (b :: l).length + (natOfDigits (b :: l) : Int) =
        (r * 10 + ((b - 48 : Nat) : Int)) * 10 ^ l.length +
          (natOfDigits l : Int) := by
      rw [natOfDigits_cons, List.length_cons]
      push_cast
      ring
    have hr10 : (0 : Int) ≤ r * 10 := by positivity
    have hstep : r * 10 + ((b - 48 : Nat) : Int) ≤
        (r * 10 + ((b - 48 : Nat) : Int)) * 10 ^ l.length +
          (natOfDigits l : Int) := by
      nlinarith
    have hmle : r * 10 ≤ I64_MAX := by
      rw [htot] at hle
      nlinarith
    have hale : r * 10 + ((b - 48 : Nat) : Int) ≤ I64_MAX := by
      rw [htot] at hle
      nlinarith
    have hzc : ¬(b - 48 = 0 ∧ ¬henz = true) := by
      intro hcc
      obtain ⟨h1, h2⟩ := hcc
      cases henz
      · have := hlz rfl
        simp at this
        omega
      · simp at h2
    rw [htot]
    unfold decodeLoop
    rw [if_neg (by simp [hnum])]
    dsimp only []
    rw [if_neg hzc, checked_mul_of r 10 (by unfold I64_MIN; omega) hmle]
    dsimp only []
    simp only [Bool.false_eq_true, if_false]
    rw [checked_add_of (r * 10) _ (by unfold I64_MIN; omega) hale]
    dsimp only []
    exact ih (r * 10 + ((b - 48 : Nat) : Int))
      (if b - 48 = 0 then henz else true) hd'
      (by
        intro hfe
        by_cases hb0 : b - 48 = 0
        · rw [if_pos hb0] at hfe
          subst hfe
          have := hlz rfl
          simp at this
          omega
        · rw [if_neg hb0] at hfe
          simp at hfe)
      (by positivity)
      (by rw [← htot]; exact hle)

theorem decodeLoop_neg_of (l : List Nat) :
    ∀ (r : Int) (henz : Bool), allDigits l →
      (henz = false → 49 ≤ l.headD 49) → r ≤ 0 →
      I64_MIN ≤ r * 10 ^ l.length - (natOfDigits l : Int) →
      decodeLoop true l henz r =
        .ok (r * 10 ^ l.length - (natOfDigits l : Int)) := by
  induction l with
  | nil =>
    intro r henz _ _ _ _
    simp [decodeLoop, natOfDigits]
  | cons b l ih =>
    intro r henz hd hlz hr hge
    have hb : 48 ≤ b ∧ b ≤ 57 := hd b (List.mem_cons_self _ _)
    have hd' : allDigits l := fun x hx => hd x (List.mem_cons_of_mem _ hx)
    have hnum := is_numeric_true_of b hb
    have hdge : (0 : Int) ≤ ((b - 48 : Nat) : Int) := by positivity
    have hpow : (1 : Int) ≤ 10 ^ l.length := by
      have := pow_pos (show (0 : Int) < 10 by norm_num) l.length
      omega
    have hnn : (0 : Int) ≤ (natOfDigits l : Int) := by positivity
    have htot : r * 10 ^ (b :: l).length - (natOfDigits (b :: l) : Int) =
        (r * 10 - ((b - 48 : Nat) : Int)) * 10 ^ l.length -
          (natOfDigits l : Int) := by
      rw [natOfDigits_cons, List.length_cons]
      push_cast
      ring
    have hr10 : r * 10 ≤ 0 := by
      have : r * 10 ≤ 0 * 10 := mul_le_mul_of_nonneg_right hr (by norm_num)
      simpa using this
    have hsub0 : r * 10 - ((b - 48 : Nat) : Int) ≤ 0 := by omega
    have hkey : (r * 10 - ((b - 48 : Nat) : Int)) * 10 ^ l.length ≤
        r * 10 - ((b - 48 : Nat) : Int) := by
      have := mul_le_mul_of_nonpos_left hpow hsub0
      simpa using this
    have hmono : (r * 10 - ((b - 48 : Nat) : Int)) * 10 ^ l.length ≤
        (r * 10) * 10 ^ l.length := by
      apply mul_le_mul_of_nonneg_right (by omega)
      positivity
    have hkey2 : (r * 10) * 10 ^ l.length ≤ r * 10 := by
      have := mul_le_mul_of_nonpos_left hpow hr10
      simpa using this
    have hmge : I64_MIN ≤ r * 10 := by
      rw [htot] at hge
      have h1 : (r * 10 - ((b - 48 : Nat) : Int)) * 10 ^ l.length -
          (natOfDigits l : Int) ≤ r * 10 := by
        calc (r * 10 - ((b - 48 : Nat) : Int)) * 10 ^ l.length -
              (natOfDigits l : Int)
            ≤ (r * 10 - ((b - 48 : Nat) : Int)) * 10 ^ l.length := by omega
          _ ≤ (r * 10) * 10 ^ l.length := hmono
          _ ≤ r * 10 := hkey2
      omega
    have hsge : I64_MIN ≤ r * 10 - ((b - 48 : Nat) : Int) := by
      rw [htot] at hge
      have h1 : (r * 10 - ((b - 48 : Nat) : Int)) * 10 ^ l.length -
          (natOfDigits l : Int) ≤ r * 10 - ((b - 48 : Nat) : Int) := by
        calc (r * 10 - ((b - 48 : Nat) : Int)) * 10 ^ l.length -
              (natOfDigits l : Int)
            ≤ (r * 10 - ((b - 48 : Nat) : Int)) * 10 ^ l.length := by omega
          _ ≤ r * 10 - ((b - 48 : Nat) : Int) := hkey
      omega
    have hzc : ¬(b - 48 = 0 ∧ ¬henz = true) := by
      intro hcc
      obtain ⟨h1, h2⟩ := hcc
      cases henz
      · have := hlz rfl
        simp at this
        omega
      · simp at h2
    rw [htot]
    unfold decodeLoop
    rw [if_neg (by simp [hnum])]
    dsimp only []
    rw [if_neg hzc, checked_mul_of r 10 hmge (by unfold I64_MAX; omega)]
    dsimp only []
    rw [if_pos rfl,
      checked_sub_of (r * 10) _ hsge (by unfold I64_MAX; omega)]
    dsimp only []
    exact ih (r * 10 - ((b - 48 : Nat) : Int))
      (if b - 48 = 0 then henz else true) hd'
      (by
        intro hfe
        by_cases hb0 : b - 48 = 0
        · rw [if_pos hb0] at hfe
          subst hfe
          have := hlz rfl
          simp at this
          omega
        · rw [if_neg hb0] at hfe
          simp at hfe)
      hsub0
      (by rw [← htot]; exact hge)

/-- `decode_int_no_sign` succeeds on a digit string with nonzero leading
digit whose value fits. -/
theorem decode_int_no_sign_pos (b : Nat) (l : List Nat)
    (hd : allDigits (b :: l)) (hh : 49 ≤ b)
    (hle : (natOfDigits (b :: l) : Int) ≤ I64_MAX) :
    decode_int_no_sign (b :: l) false = .ok (natOfDigits (b :: l)) := by
  unfold decode_int_no_sign
  rw [if_neg (by
    intro hcc
    have hb48 : b = 48 := (List.cons.injEq _ _ _ _).mp hcc |>.1
    omega)]
  have h := decodeLoop_pos_of (b :: l) 0 false hd
    (fun _ => by simpa using hh) le_rfl (by simpa using hle)
  simpa using h

theorem decode_int_no_sign_neg (b : Nat) (l : List Nat)
    (hd : allDigits (b :: l)) (hh : 49 ≤ b)
    (hge : I64_MIN ≤ -(natOfDigits (b :: l) : Int)) :
    decode_int_no_sign (b :: l) true = .ok (-(natOfDigits (b :: l))) := by
  unfold decode_int_no_sign
  rw [if_neg (by
    intro hcc
    have hb48 : b = 48 := (List.cons.injEq _ _ _ _).mp hcc |>.1
    omega)]
  have h := decodeLoop_neg_of (b :: l) 0 false hd
    (fun _ => by simpa using hh) le_rfl (by simpa using hge)
  simpa using h

/-- `decode_int` on a canonical (no leading zero) digit string whose
value fits `i64`. -/
theorem decode_int_pos_ok (b : Nat) (l : List Nat)
    (hd : allDigits (b :: l)) (hh : 49 ≤ b)
    (hle : (natOfDigits (b :: l) : Int) ≤ I64_MAX) :
    decode_int (b :: l) = .ok (natOfDigits (b :: l)) := by
  have hb : 48 ≤ b ∧ b ≤ 57 := hd b (List.mem_cons_self _ _)
  unfold decode_int
  dsimp only []
  rw [if_neg (by omega), if_pos hb, decode_int_no_sign_pos b l hd hh hle]

/-- `decode_int` on `-` followed by a canonical digit string whose
negation fits `i64` (including the most negative value). -/
theorem decode_int_neg_ok (b : Nat) (l : List Nat)
    (hd : allDigits (b :: l)) (hh : 49 ≤ b)
    (hge : I64_MIN ≤ -(natOfDigits (b :: l) : Int)) :
    decode_int (45 :: b :: l) = .ok (-(natOfDigits (b :: l))) := by
  have hpos : 1 ≤ natOfDigits (b :: l) := by
    have := natOfDigits_ge_of_head b l hh
    have hp : 0 < 10 ^ l.length := Nat.pos_pow_of_pos _ (by norm_num)
    omega
  unfold decode_int
  dsimp only []
  rw [if_pos rfl]
  have hdrop : (45 :: b :: l).drop 1 = b :: l := rfl
  rw [hdrop, decode_int_no_sign_neg b l hd hh hge]
  dsimp only []
  rw [if_neg (by
    intro hcc
    have : (natOfDigits (b :: l) : Int) = 0 := by omega
    have : natOfDigits (b :: l) = 0 := by exact_mod_cast this
    omega)]

theorem all_is_numeric_iff (l : List Nat) :
    (l.all fun c => is_numeric c) = true ↔ allDigits l := by
  simp [allDigits, is_numeric, List.all_eq_true]

theorem check_integer_ok_iff (l : List Nat) :
    check_integer l = .ok () ↔
      (l ≠ [] ∧ l ≠ [45] ∧ allDigits (numericPart l) ∧
        ((numericPart l).length ≤ 18 ∨
          (((numericPart l).length = 19 ∨ (numericPart l).length = 20) ∧
            natOfDigits ((numericPart l).take 19) ≤
              9223372036854775807 + (if l.getD 0 0 = 45 then 1 else 0)))) := by
  unfold check_integer numericPart
  by_cases h0 : l.length = 0
  · rw [if_pos h0]
    have : l = [] := List.eq_nil_of_length_eq_zero h0
    subst this
    simp
  · rw [if_neg h0]
    dsimp only []
    have hne : l ≠ [] := by intro hcc; subst hcc; simp at h0
    by_cases hneg : l.getD 0 0 = 45
    · by_cases h1 : l.length = 1
      · rw [if_pos ⟨hneg, h1⟩]
        obtain ⟨x, rfl⟩ := List.length_eq_one.mp h1
        simp only [List.getD] at hneg
        simp at hneg
        subst hneg
        simp
      · rw [if_neg (fun hcc => h1 hcc.2)]
        rw [if_pos hneg]
        set np := l.drop 1 with hnp
        by_cases hall : (np.all fun c => is_numeric c) = true
        · rw [if_neg (by simp [hall])]
          have hdig : allDigits np := (all_is_numeric_iff np).mp hall
          have hd45 : decide (l.getD 0 0 = 45) = true := decide_eq_true hneg
          rcases Nat.lt_or_ge np.length 19 with hlen | hlen
          · rw [if_neg (by
              rw [hd45, will_fit_of_le_18 np true (by omega)]
              simp)]
            simp only [true_iff, iff_true]
            refine ⟨hne, ?_, hdig, Or.inl (by omega)⟩
            intro hcc
            subst hcc
            simp at h1
          · rcases Nat.lt_or_ge 20 np.length with hlen2 | hlen2
            · rw [if_pos (by
                rw [hd45, will_fit_of_gt_20 np true hlen2]
                simp)]
              constructor
              · intro hcc; simp at hcc
              · intro hcc
                rcases hcc.2.2.2 with hx | hx
                · omega
                · omega
            · -- length 19 or 20
              have h1920 : np.length = 19 ∨ np.length = 20 := by omega
              rw [hd45, will_fit_of_19_20 np true h1920 hdig]
              by_cases hval : natOfDigits (np.take 19) ≤ 9223372036854775808
              · rw [if_neg (by simp; omega)]
                simp only [true_iff, iff_true]
                refine ⟨hne, ?_, hdig, Or.inr ⟨h1920, by omega⟩⟩
                intro hcc
                subst hcc
                simp at h1
              · rw [if_pos (by simp; omega)]
                constructor
                · intro hcc; simp at hcc
                · intro hcc
                  rcases hcc.2.2.2 with hx | hx
                  · omega
                  · omega
        · rw [if_pos (by simp [hall])]
          constructor
          · intro hcc; simp at hcc
          · intro hcc
            exact absurd ((all_is_numeric_iff np).mpr hcc.2.2.1) hall
    · rw [if_neg (fun hcc => hneg hcc.1)]
      rw [if_neg hneg]
      set np := l.drop 0 with hnp
      have hnp0 : np = l := by simp [hnp]
      by_cases hall : (np.all fun c => is_numeric c) = true
      · rw [if_neg (by simp [hall])]
        have hdig : allDigits np := (all_is_numeric_iff np).mp hall
        have hd45 : decide (l.getD 0 0 = 45) = false :=
          decide_eq_false hneg
        have hne45 : l ≠ [45] := by
          intro hcc; subst hcc; simp at hneg
        rcases Nat.lt_or_ge np.length 19 with hlen | hlen
        · rw [if_neg (by
            rw [hd45, will_fit_of_le_18 np false (by omega)]
            simp)]
          simp only [true_iff, iff_true]
          exact ⟨hne, hne45, hdig, Or.inl (by omega)⟩
        · rcases Nat.lt_or_ge 20 np.length with hlen2 | hlen2
          · rw [if_pos (by
              rw [hd45, will_fit_of_gt_20 np false hlen2]
              simp)]
            constructor
            · intro hcc; simp at hcc
            · intro hcc
              rcases hcc.2.2.2 with hx | hx
              · omega
              · omega
          · have h1920 : np.length = 19 ∨ np.length = 20 := by omega
            rw [hd45, will_fit_of_19_20 np false h1920 hdig]
            by_cases hval : natOfDigits (np.take 19) ≤ 9223372036854775807
            · rw [if_neg (by simp; omega)]
              simp only [true_iff, iff_true]
              exact ⟨hne, hne45, hdig, Or.inr ⟨h1920, by omega⟩⟩
            · rw [if_pos (by simp; omega)]
              constructor
              · intro hcc; simp at hcc
              · intro hcc
                rcases hcc.2.2.2 with hx | hx
                · omega
                · omega
      · rw [if_pos (by simp [hall])]
        constructor
        · intro hcc; simp at hcc
        · intro hcc
          exact absurd ((all_is_numeric_iff np).mpr hcc.2.2.1) hall

/-- A digit string with nonzero leading digit whose value is at most
`2^63` has at most 19 digits. -/
theorem length_le_19_of_bound (b : Nat) (rest : List Nat) (hh : 49 ≤ b)
    (hbound : natOfDigits (b :: rest) ≤ 2 ^ 63) :
    (b :: rest).length ≤ 19 := by
  by_contra hlen
  have h20 : 19 ≤ rest.length := by
    simp only [List.length_cons] at hlen
    omega
  have hge := natOfDigits_ge_of_head b rest hh
  have hp : (10 : Nat) ^ 19 ≤ 10 ^ rest.length :=
    Nat.pow_le_pow_right (by norm_num) h20
  have h19 : (10 : Nat) ^ 19 = 10000000000000000000 := by norm_num
  have h63 : (2 : Nat) ^ 63 = 9223372036854775808 := by norm_num
  omega

/-- C5 (amended direction): everything the exact decoder accepts, the
tokenizing-time coarse check accepts as well. -/
theorem decode_int_ok_check (bytes : List Nat) (v : Int)
    (h : decode_int bytes = .ok v) : check_integer bytes = .ok () := by
  rw [check_integer_ok_iff]
  match bytes with
  | [] => simp [decode_int] at h
  | b :: rest =>
    unfold decode_int at h
    dsimp only [] at h
    by_cases hb45 : b = 45
    · rw [if_pos hb45] at h
      subst hb45
      cases hns : decode_int_no_sign ((45 :: rest).drop 1) true with
      | error e => rw [hns] at h; simp at h
      | ok i =>
        rw [hns] at h
        dsimp only [] at h
        split at h
        · simp at h
        next hiz =>
          have hdrop : (45 :: rest).drop 1 = rest := rfl
          rw [hdrop] at hns
          unfold decode_int_no_sign at hns
          by_cases h48 : rest = [48]
          · rw [if_pos h48] at hns
            simp at hns
            exact absurd hns.symm hiz
          · rw [if_neg h48] at hns
            match rest with
            | [] =>
              simp [decodeLoop] at hns
              exact absurd hns.symm hiz
            | r0 :: rtail =>
              have hhd := decodeLoop_head_nonzero true r0 rtail 0 i hns
              obtain ⟨hdig, hval⟩ := decodeLoop_neg_inv _ _ _ _ hns
              simp only [zero_mul, zero_sub] at hval
              rcases decodeLoop_range true _ _ _ _ hns with ⟨habs, _⟩ | ⟨hr1, _⟩
              · simp at habs
              · have hboundI : (natOfDigits (r0 :: rtail) : Int) ≤ 2 ^ 63 := by
                  subst hval
                  unfold I64_MIN at hr1
                  omega
                have hbound : natOfDigits (r0 :: rtail) ≤ 2 ^ 63 := by
                  exact_mod_cast hboundI
                have hlen := length_le_19_of_bound r0 rtail hhd.1 hbound
                have hgd : (45 :: r0 :: rtail).getD 0 0 = 45 := rfl
                refine ⟨by simp, by simp, ?_, ?_⟩
                · simp only [numericPart, hgd, if_pos]
                  exact hdig
                · simp only [numericPart, hgd, if_pos, List.drop_succ_cons,
                    List.drop_zero]
                  rcases Nat.lt_or_ge (r0 :: rtail).length 19 with hl | hl
                  · exact Or.inl (by omega)
                  · refine Or.inr ⟨Or.inl (by omega), ?_⟩
                    rw [List.take_of_length_le (by omega)]
                    have h63 : (2 : Nat) ^ 63 = 9223372036854775808 := by
                      norm_num
                    omega
    · rw [if_neg hb45] at h
      by_cases hbd : 48 ≤ b ∧ b ≤ 57
      · rw [if_pos hbd] at h
        cases hns : decode_int_no_sign (b :: rest) false with
        | error e => rw [hns] at h; simp at h
        | ok i =>
          rw [hns] at h
          unfold decode_int_no_sign at hns
          by_cases h48 : b :: rest = [48]
          · rw [h48]
            refine ⟨by simp, by simp, by decide, Or.inl (by decide)⟩
          · rw [if_neg h48] at hns
            have hhd := decodeLoop_head_nonzero false b rest 0 i hns
            obtain ⟨hdig, hval⟩ := decodeLoop_pos_inv _ _ _ _ hns
            simp only [zero_mul, zero_add] at hval
            rcases decodeLoop_range false _ _ _ _ hns with ⟨habs, _⟩ | ⟨_, hr2⟩
            · simp at habs
            · have hboundI : (natOfDigits (b :: rest) : Int) ≤ 2 ^ 63 - 1 := by
                subst hval
                unfold I64_MAX at hr2
                omega
              have hbound : natOfDigits (b :: rest) ≤ 2 ^ 63 - 1 := by
                have h63 : (2 : Int) ^ 63 = 9223372036854775808 := by
                  norm_num
                have h63n : (2 : Nat) ^ 63 = 9223372036854775808 := by
                  norm_num
                omega
              have hlen := length_le_19_of_bound b rest hhd.1 (by omega)
              have hgd : (b :: rest).getD 0 0 = b := rfl
              have hite : ((b :: rest).getD 0 0 = 45) = False := by
                simp [hgd, hb45]
              refine ⟨by simp, ?_, ?_, ?_⟩
              · intro hcc
                have : b = 45 := ((List.cons.injEq _ _ _ _).mp hcc).1
                exact hb45 this
              · simp only [numericPart, hgd, if_neg hb45, List.drop_zero]
                exact hdig
              · simp only [numericPart, hgd, if_neg hb45, List.drop_zero]
                rcases Nat.lt_or_ge (b :: rest).length 19 with hl | hl
                · exact Or.inl (by omega)
                · refine Or.inr ⟨Or.inl (by omega), ?_⟩
                  rw [List.take_of_length_le (by omega)]
                  omega
      · rw [if_neg hbd] at h
        simp at h

/-! ## Digit rendering -/

theorem natDigitsAux_irrel : ∀ f1 : Nat, ∀ f2 n : Nat, n < f1 → n < f2 →
    natDigitsAux f1 n = natDigitsAux f2 n := by
  intro f1
  induction f1 with
  | zero => intro f2 n h1 _; omega
  | succ f1 ih =>
    intro f2 n h1 h2
    match f2 with
    | 0 => omega
    | f2 + 1 =>
      unfold natDigitsAux
      by_cases h10 : n < 10
      · rw [if_pos h10, if_pos h10]
      · rw [if_neg h10, if_neg h10, ih f2 (n / 10) (by omega) (by omega)]

theorem natDigits_small (n : Nat) (h : n < 10) : natDigits n = [48 + n] := by
  unfold natDigits natDigitsAux
  rw [if_pos h]

theorem natDigits_step (n : Nat) (h : 10 ≤ n) :
    natDigits n = natDigits (n / 10) ++ [48 + n % 10] := by
  unfold natDigits
  conv_lhs => rw [natDigitsAux]
  rw [if_neg (by omega)]
  rw [natDigitsAux_irrel n (n / 10 + 1) (n / 10) (by omega) (by omega)]

theorem natDigits_spec (n : Nat) : allDigits (natDigits n) ∧
    natOfDigits (natDigits n) = n ∧ natDigits n ≠ [] := by
  induction n using Nat.strong_induction_on with
  | _ n ih =>
    by_cases h10 : n < 10
    · rw [natDigits_small n h10]
      refine ⟨?_, ?_, by simp⟩
      · intro b hb
        simp at hb
        omega
      · rw [natOfDigits_cons]
        simp [natOfDigits]
    · rw [natDigits_step n (by omega)]
      obtain ⟨ihd, ihv, ihne⟩ := ih (n / 10) (by omega)
      refine ⟨?_, ?_, by simp⟩
      · intro b hb
        rcases List.mem_append.mp hb with hb | hb
        · exact ihd b hb
        · simp at hb
          omega
      · rw [natOfDigits_append, ihv]
        have : natOfDigits [48 + n % 10] = n % 10 := by
          rw [natOfDigits_cons]
          simp [natOfDigits]
        rw [this]
        simp only [List.length_cons, List.length_nil, pow_one]
        omega

theorem natDigits_head (n : Nat) (h : 1 ≤ n) :
    49 ≤ (natDigits n).headD 49 := by
  induction n using Nat.strong_induction_on with
  | _ n ih =>
    by_cases h10 : n < 10
    · rw [natDigits_small n h10]
      simp
      omega
    · rw [natDigits_step n (by omega)]
      have hne := (natDigits_spec (n / 10)).2.2
      have := ih (n / 10) (by omega) (by omega)
      match hh : natDigits (n / 10) with
      | [] => exact absurd hh hne
      | x :: xs =>
        rw [hh] at this
        simpa using this

/-- `decode_int` of the canonical rendering recovers every `i64`,
including the most negative value. -/
theorem decode_int_renderInt (n : Int) (h1 : I64_MIN ≤ n)
    (h2 : n ≤ I64_MAX) : decode_int (renderInt n) = .ok n := by
  unfold renderInt
  by_cases hn : n < 0
  · rw [if_pos hn]
    set m := n.natAbs with hm
    have hm1 : 1 ≤ m := by
      rw [hm]
      omega
    obtain ⟨hd, hv, hne⟩ := natDigits_spec m
    have hhd := natDigits_head m hm1
    match hdm : natDigits m with
    | [] => exact absurd hdm hne
    | b :: l =>
      rw [hdm] at hd hv hhd
      simp only [List.headD_cons] at hhd
      have hge : I64_MIN ≤ -(natOfDigits (b :: l) : Int) := by
        rw [hv]
        have : (m : Int) = -n := by
          rw [hm]
          omega
        omega
      rw [decode_int_neg_ok b l hd hhd hge, hv]
      congr 1
      rw [hm]
      omega
  · rw [if_neg hn]
    set m := n.toNat with hm
    obtain ⟨hd, hv, hne⟩ := natDigits_spec m
    by_cases hz : n = 0
    · subst hz
      simp only [Int.toNat_zero] at hm
      rw [hm]
      rfl
    · have hm1 : 1 ≤ m := by
        rw [hm]
        omega
      have hhd := natDigits_head m hm1
      match hdm : natDigits m with
      | [] => exact absurd hdm hne
      | b :: l =>
        rw [hdm] at hd hv hhd
        simp only [List.headD_cons] at hhd
        have hle : (natOfDigits (b :: l) : Int) ≤ I64_MAX := by
          rw [hv]
          have : (m : Int) = n := by
            rw [hm]
            omega
          omega
        rw [decode_int_pos_ok b l hd hhd hle, hv]
        congr 1
        rw [hm]
        omega

/-- C5 (amended): the tokenizing-time coarse check and the exact decoder
agree in one direction only: every byte slice the exact `decode_int`
accepts is accepted by `check_integer` (the converse fails: see the
counterexample `"-0"`; `check_integer` also accepts leading zeros and
some overflowing 20-digit strings). -/
theorem c5_decode_ok_implies_check_ok :
    ∀ (bytes : List Nat) (v : Int),
      decode_int bytes = .ok v → check_integer bytes = .ok () :=
  fun bytes v h => decode_int_ok_check bytes v h

/-- Witness for C5 (amended) at the literal `"42"`. -/
theorem c5_decode_ok_implies_check_ok_witness :
    check_integer (strBytes "42") = .ok () :=
  c5_decode_ok_implies_check_ok (strBytes "42") 42 rfl

/-- C6 (amended): the exact acceptance condition of the tokenizing-time
validation: it rejects empty input, a lone `-`, any non-digit, and any
literal of 21 or more digits; a 19- or 20-digit literal is accepted
exactly when its first 19 digits, read as a number, are at most
`i64::MAX` (plus one when negative); every other digit string — with or
without a sign — is accepted, leading zeros included.  (The original
claim wrongly asserted rejection of leading zeros and of all 20-digit
literals with nonzero first digit.) -/
theorem c6_check_integer_characterization :
    ∀ l : List Nat,
      check_integer l = .ok () ↔
        (l ≠ [] ∧ l ≠ [45] ∧ allDigits (numericPart l) ∧
          ((numericPart l).length ≤ 18 ∨
            (((numericPart l).length = 19 ∨ (numericPart l).length = 20) ∧
              natOfDigits ((numericPart l).take 19) ≤
                9223372036854775807 + (if l.getD 0 0 = 45 then 1 else 0)))) :=
  fun l => check_integer_ok_iff l

/-- Witness for C6 (amended): the 19-digit literal one past `i64::MAX` is
rejected by the characterization. -/
theorem c6_check_integer_characterization_witness :
    check_integer (strBytes "9223372036854775808") ≠ .ok () :=
  fun h =>
    absurd ((c6_check_integer_characterization
      (strBytes "9223372036854775808")).mp h) (by decide)

/-! ## Evaluating the parser on integer literals -/

theorem memchr_eq (c : Nat) (ds rest : List Nat) (h : ∀ b ∈ ds, b ≠ c) :
    memchr c (ds ++ c :: rest) = some ds.length := by
  induction ds with
  | nil => simp [memchr]
  | cons d ds ih =>
    have hd : d ≠ c := h d (List.mem_cons_self _ _)
    have ih' := ih (fun b hb => h b (List.mem_cons_of_mem _ hb))
    show memchr c (d :: (ds ++ c :: rest)) = some (ds.length + 1)
    rw [memchr, if_neg hd, ih']
    rfl

theorem getD_concat (xs : List Nat) (c : Nat) (rest : List Nat) :
    (xs ++ c :: rest).getD xs.length 0 = c := by
  rw [List.getD_eq_getElem?_getD, List.getElem?_append_right le_rfl,
    Nat.sub_self]
  simp

theorem lsliceBang_concat (x : Nat) (ds rest : List Nat) :
    lsliceBang (x :: ds ++ rest) 1 (1 + ds.length) = .ok ds := by
  unfold lsliceBang
  rw [if_pos (by refine ⟨by omega, by simp; omega⟩)]
  congr 1
  show ((x :: (ds ++ rest)).drop 1).take (1 + ds.length - 1) = ds
  rw [show (1 + ds.length - 1) = ds.length by omega]
  show (ds ++ rest).take ds.length = ds
  exact List.take_left ds rest

theorem lsliceBang_concat1 (x : Nat) (ds rest : List Nat) :
    lsliceBang (x :: ds ++ rest) 1 (ds.length + 1) = .ok ds := by
  rw [show ds.length + 1 = 1 + ds.length by omega]
  exact lsliceBang_concat x ds rest

theorem lsliceBang_left (ds rest : List Nat) :
    lsliceBang (ds ++ rest) 0 ds.length = .ok ds := by
  unfold lsliceBang
  rw [if_pos (by refine ⟨by omega, by simp⟩)]
  congr 1
  simp only [List.drop_zero, Nat.sub_zero]
  exact List.take_left ds rest


theorem bdecodeStep_single_int (ds : List Nat) (hds : ∀ b ∈ ds, b ≠ 101)
    (hchk : check_integer ds = .ok ()) :
    bdecodeStep (105 :: ds ++ [101]) ⟨0, #[], #[], 0⟩ =
      .ok ⟨0, #[], #[⟨76⟩], ds.length + 2⟩ := by
  have hsplit : (105 : Nat) :: ds ++ [101] = (105 :: ds) ++ 101 :: [] := by
    simp
  have hm : memchr 101 ((105 :: ds ++ [101]).drop 0) =
      some (ds.length + 1) := by
    rw [List.drop_zero, hsplit,
      memchr_eq 101 (105 :: ds) [] (by
        intro b hb
        rcases List.mem_cons.mp hb with rfl | hb
        · omega
        · exact hds b hb)]
    simp
  have hgd : (105 :: ds ++ [101]).getD (ds.length + 1) 0 = 101 := by
    rw [hsplit, show ds.length + 1 = (105 :: ds).length by simp]
    exact getD_concat (105 :: ds) 101 []
  have htok : Token.new 0 .Int 1 1 = .ok ⟨76⟩ := rfl
  unfold bdecodeStep
  simp only [lgetBang, List.getElem?_cons_zero, gt_iff_lt, lt_irrefl,
    if_false, hm, zero_add, lsliceBang_concat1, hchk, liftE, htok, hgd,
    dassert, if_true, Res.bind, bind, pure]
  norm_num

/-- Parsing `i<digits>e` (digits free of `e`, passing the coarse check)
yields exactly an `Int` token and the final sentinel. -/
theorem bdecode_single_int (ds : List Nat) (hds : ∀ b ∈ ds, b ≠ 101)
    (hchk : check_integer ds = .ok ())
    (hlen : ds.length + 2 ≤ Token.MAX_OFFSET) :
    bdecode (105 :: ds ++ [101]) =
      .ok ⟨105 :: ds ++ [101],
        #[⟨76⟩, ⟨(ds.length + 2) * 2 ^ 35 + 5⟩]⟩ := by
  have hblen : (105 :: ds ++ [101]).length = ds.length + 2 := by
    simp
  unfold bdecode
  rw [if_neg (by omega), if_neg (by omega), hblen]
  rw [bdecodeGo]
  rw [if_pos (by rw [hblen]; show (0 : Nat) < ds.length + 2; omega)]
  rw [bdecodeStep_single_int ds hds hchk]
  dsimp only []
  rw [if_pos rfl]
  dsimp only []
  have hend : Token.new (ds.length + 2) .End 0 0 =
      .ok ⟨(ds.length + 2) * 2 ^ 35 + 5⟩ := by
    unfold Token.new
    rw [if_neg (by
      intro hcc
      rcases hcc with hcc | hcc | hcc <;> omega)]
    simp [TokenType.code]
  rw [hend]
  simp [Array.push]

/-- Reading back the root of a parsed `i<digits>e` buffer. -/
theorem rootIntValue_single_int (ds : List Nat) (hds : ∀ b ∈ ds, b ≠ 101)
    (hchk : check_integer ds = .ok ())
    (hlen : ds.length + 2 ≤ Token.MAX_OFFSET) :
    rootNodeType (105 :: ds ++ [101]) = .ok .Int ∧
      rootIntValue (105 :: ds ++ [101]) =
        liftE (decode_int ds) := by
  have hb := bdecode_single_int ds hds hchk hlen
  have hoff : ((⟨(ds.length + 2) * 2 ^ 35 + 5⟩ : Token)).offset =
      ds.length + 2 := by
    show ((ds.length + 2) * 2 ^ 35 + 5) / 2 ^ 35 = ds.length + 2
    omega
  have htt : ((⟨(76 : Nat)⟩ : Token)).token_type = .Int := rfl
  have hgd0 : (105 :: ds ++ [101]).getD 0 0 = 105 := rfl
  have hgd : (105 :: ds ++ [101]).getD (ds.length + 2 - 1) 0 = 101 := by
    rw [show ds.length + 2 - 1 = (105 :: ds).length by simp,
      show (105 : Nat) :: ds ++ [101] = (105 :: ds) ++ 101 :: [] by simp]
    exact getD_concat (105 :: ds) 101 []
  constructor
  · unfold rootNodeType
    rw [hb]
    simp only [Res.bind, bind, Bencode.get_root]
    unfold BencodeAny.node_type nodeTypeAt
    simp [agetBang, Res.bind, bind, htt, pure]
  · unfold rootIntValue
    rw [hb]
    simp only [Res.bind, bind, Bencode.get_root]
    unfold BencodeAny.as_int nodeTypeAt
    simp only [agetBang,
      show (#[(⟨76⟩ : Token), ⟨(ds.length + 2) * 2 ^ 35 + 5⟩] :
        Array Token)[0]? = some ⟨76⟩ from rfl, Res.bind, bind]
    rw [htt]
    dsimp only []
    rw [if_neg (show ¬(NodeType.Int ≠ NodeType.Int) from fun hcc => hcc rfl)]
    simp only [pure, Res.bind, bind]
    unfold BencodeInt.value intAsBytesAt
    simp only [agetBang,
      show (#[(⟨76⟩ : Token), ⟨(ds.length + 2) * 2 ^ 35 + 5⟩] :
        Array Token)[(0 : Nat)]? = some ⟨76⟩ from rfl,
      show (#[(⟨76⟩ : Token), ⟨(ds.length + 2) * 2 ^ 35 + 5⟩] :
        Array Token)[(0 : Nat) + 1]? =
          some ⟨(ds.length + 2) * 2 ^ 35 + 5⟩ from rfl,
      Res.bind, bind, pure,
      show ((⟨(76 : Nat)⟩ : Token)).offset = 0 from rfl, hoff,
      dassert, hgd0, hgd, subBang, eq_self_iff_true, if_true]
    norm_num
    rw [show lsliceBang (105 :: (ds ++ [101])) 1 (1 + ds.length) =
      .ok ds from lsliceBang_concat 105 ds [101]]

theorem renderInt_mem (n : Int) :
    ∀ b ∈ renderInt n, b = 45 ∨ (48 ≤ b ∧ b ≤ 57) := by
  unfold renderInt
  by_cases hn : n < 0
  · rw [if_pos hn]
    intro b hb
    rcases List.mem_cons.mp hb with rfl | hb
    · exact Or.inl rfl
    · exact Or.inr ((natDigits_spec _).1 b hb)
  · rw [if_neg hn]
    intro b hb
    exact Or.inr ((natDigits_spec _).1 b hb)

theorem natDigits_length_le (m : Nat) (h : m ≤ 2 ^ 63) :
    (natDigits m).length ≤ 19 := by
  by_cases h0 : m = 0
  · subst h0
    rw [natDigits_small 0 (by norm_num)]
    simp
  · obtain ⟨hd, hv, hne⟩ := natDigits_spec m
    have hhd := natDigits_head m (by omega)
    match hdm : natDigits m with
    | [] => exact absurd hdm hne
    | b :: l =>
      rw [hdm] at hv hhd
      simp only [List.headD_cons] at hhd
      exact length_le_19_of_bound b l hhd (by omega)

/-- C4: for every 64-bit signed integer, including `i64::MIN` and
`i64::MAX`, decoding the buffer `i<canonical decimal>e` succeeds, the
root node's kind is `Int`, and `value()` returns exactly that integer. -/
theorem c4_int_roundtrip (n : Int) (h1 : I64_MIN ≤ n) (h2 : n ≤ I64_MAX) :
    rootNodeType (intBuf n) = .ok .Int ∧
      rootIntValue (intBuf n) = .ok n := by
  have hdec := decode_int_renderInt n h1 h2
  have hchk := decode_int_ok_check _ n hdec
  have hmem := renderInt_mem n
  have hds : ∀ b ∈ renderInt n, b ≠ 101 := by
    intro b hb
    rcases hmem b hb with h | h <;> omega
  have hrl : (renderInt n).length ≤ 20 := by
    unfold renderInt
    by_cases hn : n < 0
    · rw [if_pos hn]
      have := natDigits_length_le n.natAbs (by
        unfold I64_MIN at h1
        omega)
      simp only [List.length_cons]
      omega
    · rw [if_neg hn]
      have := natDigits_length_le n.toNat (by
        unfold I64_MAX at h2
        omega)
      omega
  have hlen : (renderInt n).length + 2 ≤ Token.MAX_OFFSET := by
    unfold Token.MAX_OFFSET
    omega
  obtain ⟨hnt, hval⟩ := rootIntValue_single_int (renderInt n) hds hchk hlen
  refine ⟨hnt, ?_⟩
  show rootIntValue (105 :: renderInt n ++ [101]) = .ok n
  rw [hval, hdec]
  rfl

/-- Witness for C4 at the most negative `i64`. -/
theorem c4_int_roundtrip_witness :
    rootNodeType (intBuf (-(2 ^ 63))) = .ok .Int ∧
      rootIntValue (intBuf (-(2 ^ 63))) = .ok (-(2 ^ 63)) :=
  c4_int_roundtrip (-(2 ^ 63)) (by norm_num [I64_MIN]) (by norm_num [I64_MAX])

/-- C1: the claim states that for every input, `bdecode` and every
subsequent traversal of a successfully decoded tree never panic and all
internal assertions hold.  The code violates this: on the successfully
decoded three-element list `"l1:a1:b1:ce"`, the sequence `get(2)`,
`get(1)`, `len()`, full iteration, `size_hint()` hits the failed
`debug_assert!(num_traversed <= size)` in `BencodeListIter::size_hint`
(modelled as `Res.crash`), because `get`'s inverted cache-resume
condition (`last_index >= index`, contradicting the field's own comment)
corrupts the cache and makes `len()` memoize 2 for the 3-element list. -/
theorem c1_traversal_assert_fails :
    c1scenario = Res.crash ∧ c1lenAfter = Res.ok 2 ∧
      c1lenFresh = Res.ok 3 :=
  ⟨rfl, rfl, rfl⟩

/-- C2: the claim states that `get(i)` on a handle always returns what a
fresh handle would return, the cache never changing observable output.
The code violates this: on the two-element list `"l1:a1:be"`, a fresh
handle's `get(0)` returns the first element (token index 1), but after
`get(1)` the same handle's `get(0)` returns the second element (token
index 2), because the cache resume condition `last_index >= index` is
inverted with respect to the field's own comment. -/
theorem c2_cache_changes_get_result :
    c2getFresh = Res.ok (some ⟨1⟩) ∧ c2getAfter = Res.ok (some ⟨2⟩) ∧
      (⟨1⟩ : BencodeAny) ≠ ⟨2⟩ :=
  ⟨rfl, rfl, by decide⟩

/-- C3: the claim states that dict `get(i)` returns the i-th key-value
pair for every reachable cache state, the cache being resumed only when
the requested index is at or beyond the cached one.  The code violates
this: on `{a: 1, b: 2}` (`"d1:ai1e1:bi2ee"`), a fresh `get(0)` returns
the pair with key `"a"`, but after `get(1)` the same handle's `get(0)`
resumes from the cache (the inverted condition `last_index >= index`) and
returns the pair with key `"b"`. -/
theorem c3_dict_get_cache_wrong_pair :
    c3getFresh = Res.ok (some (strBytes "a", ⟨2⟩)) ∧
      c3getAfter = Res.ok (some (strBytes "b", ⟨4⟩)) ∧
      strBytes "a" ≠ strBytes "b" :=
  ⟨rfl, rfl, by decide⟩

/-- C9: `bdecode` accepts integer literals with a leading zero and the
negative-zero literal at parse time (the tokenizing-time `check_integer`
accepts both), the root node's kind is `Int` in both cases, and the
`LeadingZero` / `NegativeZero` errors surface only from `value()`. -/
theorem c9_parse_accepts_leading_and_negative_zero :
    Res.isOk (bdecode (strBytes "i042e")) = true ∧
      rootNodeType (strBytes "i042e") = Res.ok .Int ∧
      rootIntValue (strBytes "i042e") = Res.fail .LeadingZero ∧
      Res.isOk (bdecode (strBytes "i-0e")) = true ∧
      rootNodeType (strBytes "i-0e") = Res.ok .Int ∧
      rootIntValue (strBytes "i-0e") = Res.fail .NegativeZero ∧
      check_integer (strBytes "042") = .ok () ∧
      check_integer (strBytes "-0") = .ok () :=
  ⟨rfl, rfl, rfl, rfl, rfl, rfl, rfl, rfl⟩

/-- C5 (counterexample): the claim's equivalence fails at the byte slice
`"-0"`: the tokenizing-time `check_integer` accepts it while the exact
`decode_int` rejects it with `NegativeZero`. -/
theorem c5_counterexample_negative_zero :
    check_integer (strBytes "-0") = .ok () ∧
      decode_int (strBytes "-0") = .error .NegativeZero :=
  ⟨rfl, rfl⟩

/-- C6 (counterexample): the claim says the tokenizing-time validation
rejects leading-zero literals and every literal of 20 or more digits with
nonzero first digit; in fact `check_integer` accepts `"042"` (it performs
no leading-zero test) and accepts the 20-digit literal
`"12345678901234567890"` (the coarse bound compares only the first 19
digits against the `i64` threshold, and `1 < 9` decides it early). -/
theorem c6_counterexample_check_integer_accepts :
    check_integer (strBytes "042") = .ok () ∧
      check_integer (strBytes "12345678901234567890") = .ok () :=
  ⟨rfl, rfl⟩

/-- C8 (counterexample): the claim says a string token's header field
equals the byte count of the length prefix and separator (2 for `"4:"`),
and that `as_bytes()` is the span `[offset + header, offset + header +
length)` with `length` the distance to the next token's offset minus the
header.  On the parse of `"4:spam"` the stored header field is 0, not 2,
and `as_bytes()` yields `"spam"` whereas the claim's span (with the
stored header 0 and length `6 - 0`) would be the whole `"4:spam"`. -/
theorem c8_counterexample_header_is_stored_minus_two :
    (c8tokens.getD 0 default).token_type = .Str ∧
      (c8tokens.getD 0 default).header = 0 ∧
      ¬(c8tokens.getD 0 default).header = 2 ∧
      strAsBytesAt c8buf c8tokens 0 = Res.ok (strBytes "spam") ∧
      ((c8buf.drop ((c8tokens.getD 0 default).offset +
          (c8tokens.getD 0 default).header)).take
        ((c8tokens.getD 1 default).offset -
          (c8tokens.getD 0 default).header) = strBytes "4:spam") ∧
      strBytes "spam" ≠ strBytes "4:spam" :=
  ⟨rfl, rfl, by decide, rfl, rfl, by decide⟩

/-- C10 (amended): a bencoded string whose length prefix has 9 or more
digits *free of leading zeros* makes `bdecode` fail with `LimitExceeded`
when the declared payload fits in the remaining buffer and the whole
buffer is within the maximum addressable size: the stored header value
(prefix digits plus colon minus the 2 implied bytes) would exceed 7.
(With a leading zero the exact decode fails first with `LeadingZero`,
see the counterexample.) -/
theorem c10_nine_digit_prefix_limit_exceeded (ds rest : List Nat)
    (hlen9 : 9 ≤ ds.length) (hdig : allDigits ds)
    (hh : 49 ≤ ds.headD 0)
    (hbuf : (ds ++ 58 :: rest).length ≤ Token.MAX_OFFSET)
    (hv : natOfDigits ds ≤ rest.length) :
    bdecode (ds ++ 58 :: rest) = .fail .LimitExceeded := by
  match ds, hlen9 with
  | d0 :: dtl, hl =>
  have hd0 : 48 ≤ d0 ∧ d0 ≤ 57 := hdig d0 (List.mem_cons_self _ _)
  have hh0 : 49 ≤ d0 := by simpa using hh
  have hgrow := natOfDigits_ge_of_head d0 dtl hh0
  have hMAX : Token.MAX_OFFSET = 536870911 := by norm_num [Token.MAX_OFFSET]
  have hblen : ((d0 :: dtl) ++ 58 :: rest).length =
      dtl.length + 2 + rest.length := by simp; omega
  have hrest : 10 ^ dtl.length ≤ rest.length := le_trans hgrow hv
  have hlen8 : dtl.length = 8 := by
    by_contra hne
    have h9 : 9 ≤ dtl.length := by
      simp only [List.length_cons] at hl
      omega
    have hp : (10 : Nat) ^ 9 ≤ 10 ^ dtl.length :=
      Nat.pow_le_pow_right (by norm_num) h9
    have h10 : (10 : Nat) ^ 9 = 1000000000 := by norm_num
    rw [hblen, hMAX] at hbuf
    omega
  have hbig : 100000000 ≤ rest.length := by
    have : (10 : Nat) ^ dtl.length = 100000000 := by rw [hlen8]; norm_num
    omega
  have hvle : (natOfDigits (d0 :: dtl) : Int) ≤ I64_MAX := by
    have h2 : rest.length ≤ 536870911 := by
      rw [hblen, hMAX] at hbuf
      omega
    unfold I64_MAX
    have h3 : ((natOfDigits (d0 :: dtl) : Int)) ≤ (536870911 : Int) := by
      exact_mod_cast le_trans hv h2
    omega
  have hdec : decode_int (d0 :: dtl) = .ok (natOfDigits (d0 :: dtl)) :=
    decode_int_pos_ok d0 dtl hdig hh0 hvle
  have hchk : check_integer (d0 :: dtl) = .ok () :=
    decode_int_ok_check _ _ hdec
  have hm : memchr 58 (((d0 :: dtl) ++ 58 :: rest).drop 0) =
      some (dtl.length + 1) := by
    rw [List.drop_zero,
      memchr_eq 58 (d0 :: dtl) rest (by
        intro b hb
        have := hdig b hb
        omega)]
    simp
  have hgd : ((d0 :: dtl) ++ 58 :: rest).getD (dtl.length + 1) 0 = 58 := by
    show ((d0 :: dtl) ++ 58 :: rest).getD (d0 :: dtl).length 0 = 58
    exact getD_concat (d0 :: dtl) 58 rest
  have hslice : lsliceBang ((d0 :: dtl) ++ 58 :: rest) 0
      (dtl.length + 1) = .ok (d0 :: dtl) := by
    show lsliceBang ((d0 :: dtl) ++ 58 :: rest) 0 (d0 :: dtl).length =
      .ok (d0 :: dtl)
    exact lsliceBang_left (d0 :: dtl) (58 :: rest)
  have hget0 : ((d0 :: dtl) ++ 58 :: rest)[(0 : Nat)]? = some d0 := by
    rw [List.cons_append]
    simp
  have hstep : bdecodeStep ((d0 :: dtl) ++ 58 :: rest) ⟨0, #[], #[], 0⟩ =
      .fail .LimitExceeded := by
    unfold bdecodeStep
    simp only [lgetBang, hget0, gt_iff_lt, lt_irrefl, if_false, Res.bind,
      bind, pure]
    have hd0' : d0 ≤ 57 := hd0.2
    interval_cases d0
    all_goals
      (simp only [zero_add, hm, hgd, hslice, hchk, hdec, liftE, dassert,
        eq_self_iff_true, if_true, Res.bind, bind, pure]
       rw [if_neg (not_lt.mpr (Int.natCast_nonneg _)),
         if_neg (by rw [hblen]; omega),
         if_neg (by rw [hblen]; omega),
         show Token.new 0 TokenType.Str 1 (dtl.length + 1 + 1 - 0 - 2) =
             .error .LimitExceeded from by
           unfold Token.new
           rw [if_pos (Or.inr (Or.inr (by
             norm_num [Token.MAX_HEADER]
             omega)))]])
  unfold bdecode
  rw [if_neg (not_lt.mpr hbuf), if_neg (by rw [hblen]; omega)]
  rw [bdecodeGo]
  rw [if_pos (show (0 : Nat) < _ from by rw [hblen]; omega)]
  rw [hstep]

theorem c10_nine_digit_prefix_limit_exceeded_witness :
    bdecode ([49, 48, 48, 48, 48, 48, 48, 48, 48] ++
        58 :: List.replicate 100000000 0) =
      .fail .LimitExceeded :=
  c10_nine_digit_prefix_limit_exceeded
    [49, 48, 48, 48, 48, 48, 48, 48, 48]
    (List.replicate 100000000 0) (by decide) (by decide) (by decide)
    (by
      have h2 : ∀ r : List Nat,
          (([49, 48, 48, 48, 48, 48, 48, 48, 48] : List Nat) ++
            58 :: r).length = r.length + 10 := by
        intro r
        simp
      rw [h2, List.length_replicate]
      norm_num [Token.MAX_OFFSET])
    (by rw [List.length_replicate]; decide)

/-- C10 (counterexample): the claim says every bencoded string whose
length prefix has 9 or more digits fails with `LimitExceeded`; but the
9-digit prefix `"000000000"` (declared payload 0, which fits the empty
remainder) fails with `LeadingZero` instead, because the exact
`decode_int` of the length prefix runs before the header-width check. -/
theorem c10_counterexample_leading_zero_prefix :
    bdecode (strBytes "000000000:") = Res.fail .LeadingZero ∧
      bdecode (strBytes "000000000:") ≠ Res.fail .LimitExceeded :=
  ⟨rfl, by decide⟩

/-! ### Array `getD` facts -/

theorem agetD_push_lt (a : Array α) (x : α) (i : Nat) (d : α)
    (h : i < a.size) : (a.push x).getD i d = a.getD i d := by
  unfold Array.getD
  rw [dif_pos (by simp; omega), dif_pos h]
  exact Array.getElem_push_lt a x i h

theorem agetD_push_eq (a : Array α) (x : α) (d : α) :
    (a.push x).getD a.size d = x := by
  unfold Array.getD
  rw [dif_pos (by simp)]
  exact Array.getElem_push_eq a x

theorem agetD_ge (a : Array α) (i : Nat) (d : α) (h : a.size ≤ i) :
    a.getD i d = d := by
  unfold Array.getD
  rw [dif_neg (by omega)]

theorem agetD_set (a : Array α) (i : Nat) (h : i < a.size) (x : α)
    (j : Nat) (d : α) :
    (a.set ⟨i, h⟩ x).getD j d = if j = i then x else a.getD j d := by
  unfold Array.getD
  by_cases hj : j = i
  · subst hj
    rw [dif_pos (by simp; omega), if_pos rfl]
    simp
  · rw [if_neg hj]
    by_cases hjs : j < a.size
    · rw [dif_pos (by simp; omega), dif_pos hjs]
      exact Array.getElem_set_ne a ⟨i, h⟩ x (by simpa using hjs)
        (fun hc => hj hc.symm)
    · rw [dif_neg (by simp; omega), dif_neg hjs]

theorem agetD_pop (a : Array α) (i : Nat) (d : α) (h : i < a.size - 1) :
    a.pop.getD i d = a.getD i d := by
  unfold Array.getD
  rw [dif_pos (by simp; omega), dif_pos (by omega)]
  exact Array.getElem_pop a i (by simp; omega)

/-! ### Balance lemmas -/

theorem balGo_append (ts : Array Token) (m : Nat) :
    ∀ n a, balGo ts (m + n) a = balGo ts m a + balGo ts n (a + m) := by
  induction m with
  | zero => intro n a; simp [balGo]
  | succ m ih =>
    intro n a
    have h1 : m + 1 + n = (m + n) + 1 := by omega
    rw [h1]
    show wt (ts.getD a default).token_type + balGo ts (m + n) (a + 1) = _
    rw [ih n (a + 1)]
    show _ = wt (ts.getD a default).token_type + balGo ts m (a + 1) +
      balGo ts n (a + (m + 1))
    have h2 : a + 1 + m = a + (m + 1) := by omega
    rw [h2]
    ring

theorem bal_same (ts : Array Token) (a : Nat) : bal ts a a = 0 := by
  unfold bal
  rw [Nat.sub_self]
  rfl

theorem bal_split (ts : Array Token) (a b c : Nat) (hab : a ≤ b)
    (hbc : b ≤ c) : bal ts a c = bal ts a b + bal ts b c := by
  unfold bal
  have h1 : c - a = (b - a) + (c - b) := by omega
  rw [h1, balGo_append]
  have h2 : a + (b - a) = b := by omega
  rw [h2]

theorem bal_single (ts : Array Token) (a : Nat) :
    bal ts a (a + 1) = wt (ts.getD a default).token_type := by
  unfold bal
  rw [Nat.add_sub_cancel_left]
  show wt (ts.getD a default).token_type + 0 = _
  ring

theorem bal_succ_right (ts : Array Token) (a b : Nat) (h : a ≤ b) :
    bal ts a (b + 1) =
      bal ts a b + wt (ts.getD b default).token_type := by
  rw [bal_split ts a b (b + 1) h (by omega), bal_single]

theorem balGo_congr (ts ts' : Array Token) (m : Nat) :
    ∀ a, (∀ i, a ≤ i → i < a + m →
      (ts'.getD i default).token_type = (ts.getD i default).token_type) →
    balGo ts' m a = balGo ts m a := by
  induction m with
  | zero => intro a _; rfl
  | succ m ih =>
    intro a hcong
    show wt (ts'.getD a default).token_type + balGo ts' m (a + 1) = 
      wt (ts.getD a default).token_type + balGo ts m (a + 1)
    rw [hcong a le_rfl (by omega), ih (a + 1)
      (fun i h1 h2 => hcong i (by omega) (by omega))]

theorem bal_congr (ts ts' : Array Token) (a b : Nat)
    (hcong : ∀ i, a ≤ i → i < b →
      (ts'.getD i default).token_type = (ts.getD i default).token_type) :
    bal ts' a b = bal ts a b := by
  unfold bal
  exact balGo_congr ts ts' (b - a) a (fun i h1 h2 => hcong i h1 (by omega))

/-! ### Packed-field round trips -/

theorem TokenType.code_lt (ty : TokenType) : ty.code < 8 := by
  cases ty <;> decide

theorem typeOfCode_code (ty : TokenType) : typeOfCode ty.code = ty := by
  cases ty <;> rfl

theorem Token.new_spec (o : Nat) (ty : TokenType) (ni h : Nat) (t : Token)
    (hok : Token.new o ty ni h = .ok t) :
    t.offset = o ∧ t.next_item = ni ∧ t.header = h ∧
      t.token_type = ty ∧ o ≤ Token.MAX_OFFSET ∧
      ni ≤ Token.MAX_NEXT_ITEM ∧ h ≤ Token.MAX_HEADER := by
  unfold Token.new at hok
  split at hok
  · exact absurd hok (by simp)
  next hb =>
    have hb' : o ≤ Token.MAX_OFFSET ∧ ni ≤ Token.MAX_NEXT_ITEM ∧
        h ≤ Token.MAX_HEADER := by
      push_neg at hb
      omega
    have hni : ni ≤ 2 ^ 29 - 1 := by
      have := hb'.2.1
      norm_num [Token.MAX_NEXT_ITEM] at this
      omega
    have hh : h ≤ 7 := by
      have := hb'.2.2
      norm_num [Token.MAX_HEADER] at this
      omega
    have hc : ty.code < 8 := TokenType.code_lt ty
    simp only [Except.ok.injEq] at hok
    subst hok
    refine ⟨?_, ?_, ?_, ?_, hb'.1, hb'.2.1, hb'.2.2⟩
    · show (o * 2 ^ 35 + ni * 2 ^ 6 + h * 2 ^ 3 + ty.code) / 2 ^ 35 = o
      have e35 : (2:Nat) ^ 35 = 34359738368 := by norm_num
      have e6 : (2:Nat) ^ 6 = 64 := by norm_num
      have e3 : (2:Nat) ^ 3 = 8 := by norm_num
      rw [e35, e6, e3]
      omega
    · show (o * 2 ^ 35 + ni * 2 ^ 6 + h * 2 ^ 3 + ty.code) / 2 ^ 6 %
        2 ^ 29 = ni
      have e35 : (2:Nat) ^ 35 = 34359738368 := by norm_num
      have e6 : (2:Nat) ^ 6 = 64 := by norm_num
      have e3 : (2:Nat) ^ 3 = 8 := by norm_num
      have e29 : (2:Nat) ^ 29 = 536870912 := by norm_num
      rw [e35, e6, e3, e29]
      omega
    · show (o * 2 ^ 35 + ni * 2 ^ 6 + h * 2 ^ 3 + ty.code) / 2 ^ 3 %
        2 ^ 3 = h
      have e35 : (2:Nat) ^ 35 = 34359738368 := by norm_num
      have e6 : (2:Nat) ^ 6 = 64 := by norm_num
      have e3 : (2:Nat) ^ 3 = 8 := by norm_num
      rw [e35, e6, e3]
      omega
    · show typeOfCode
        ((o * 2 ^ 35 + ni * 2 ^ 6 + h * 2 ^ 3 + ty.code) % 2 ^ 3) = ty
      have hm : (o * 2 ^ 35 + ni * 2 ^ 6 + h * 2 ^ 3 + ty.code) % 2 ^ 3 =
          ty.code := by
        have e35 : (2:Nat) ^ 35 = 34359738368 := by norm_num
        have e6 : (2:Nat) ^ 6 = 64 := by norm_num
        have e3 : (2:Nat) ^ 3 = 8 := by norm_num
        rw [e35, e6, e3]
        omega
      rw [hm, typeOfCode_code]

theorem Token.set_next_item_spec (t : Token) (n : Nat) (t' : Token)
    (hok : t.set_next_item n = .ok t') :
    t'.offset = t.offset ∧ t'.next_item = n ∧ t'.header = t.header ∧
      t'.token_type = t.token_type := by
  unfold Token.set_next_item at hok
  split at hok
  · exact absurd hok (by simp)
  next hb =>
    have hn : n ≤ 2 ^ 29 - 1 := by
      simp only [not_lt, gt_iff_lt] at hb
      norm_num [Token.MAX_NEXT_ITEM] at hb
      omega
    simp only [Except.ok.injEq] at hok
    subst hok
    have e35 : (2:Nat) ^ 35 = 34359738368 := by norm_num
    have e6 : (2:Nat) ^ 6 = 64 := by norm_num
    have e3 : (2:Nat) ^ 3 = 8 := by norm_num
    have e29 : (2:Nat) ^ 29 = 536870912 := by norm_num
    refine ⟨?_, ?_, ?_, ?_⟩
    · show (t.inner / 2 ^ 35 * 2 ^ 35 + n * 2 ^ 6 + t.inner % 2 ^ 6) /
        2 ^ 35 = t.inner / 2 ^ 35
      rw [e35, e6]
      omega
    · show (t.inner / 2 ^ 35 * 2 ^ 35 + n * 2 ^ 6 + t.inner % 2 ^ 6) /
        2 ^ 6 % 2 ^ 29 = n
      rw [e35, e6, e29]
      omega
    · show (t.inner / 2 ^ 35 * 2 ^ 35 + n * 2 ^ 6 + t.inner % 2 ^ 6) /
        2 ^ 3 % 2 ^ 3 = t.inner / 2 ^ 3 % 2 ^ 3
      rw [e35, e6, e3]
      omega
    · show typeOfCode ((t.inner / 2 ^ 35 * 2 ^ 35 + n * 2 ^ 6 +
        t.inner % 2 ^ 6) % 2 ^ 3) = typeOfCode (t.inner % 2 ^ 3)
      congr 1
      rw [e35, e6, e3]
      omega

theorem StackFrame.new_token (token : Nat) (s : StackFrameState)
    (h : token < 2 ^ 31) : (StackFrame.new token s).token = token := by
  have e31 : (2:Nat) ^ 31 = 2147483648 := by norm_num
  have e32 : (2:Nat) ^ 32 = 4294967296 := by norm_num
  rw [e31] at h
  cases s
  · show (token * 2 % 2 ^ 32 + 0) / 2 = token
    rw [e32]
    omega
  · show (token * 2 % 2 ^ 32 + 1) / 2 = token
    rw [e32]
    omega

theorem StackFrame.toggle_token (f : StackFrame) :
    f.toggle_state.token = f.token := by
  unfold StackFrame.toggle_state StackFrame.token
  by_cases hp : f.inner % 2 = 0
  · rw [if_pos hp]
    show (f.inner + 1) / 2 = f.inner / 2
    omega
  · rw [if_neg hp]
    show (f.inner - 1) / 2 = f.inner / 2
    omega

/-! ### memchr bound and an exact-decode inversion -/

theorem memchr_some_lt (c : Nat) (l : List Nat) (i : Nat)
    (h : memchr c l = some i) : i < l.length := by
  induction l generalizing i with
  | nil => simp [memchr] at h
  | cons b rest ih =>
    unfold memchr at h
    split at h
    · have h0 : 0 = i := by simpa using h
      subst h0
      simp
    · match hm : memchr c rest with
      | none => rw [hm] at h; simp at h
      | some k =>
        rw [hm] at h
        simp at h
        have := ih k hm
        simp
        omega

theorem decode_int_ok_nonneg (bytes : List Nat) (v : Int)
    (h : decode_int bytes = .ok v) (hv : 0 ≤ v) :
    allDigits bytes ∧ v = (natOfDigits bytes : Int) := by
  match bytes with
  | [] => simp [decode_int] at h
  | b :: rest =>
    unfold decode_int at h
    dsimp only [] at h
    split at h
    next hneg =>
      subst hneg
      exfalso
      match hd : decode_int_no_sign ((45 :: rest).drop 1) true with
      | .error e =>
        rw [hd] at h
        exact absurd h (by simp)
      | .ok integer =>
        rw [hd] at h
        dsimp only [] at h
        by_cases hz : integer = 0
        · rw [if_pos hz] at h
          exact absurd h (by simp)
        · rw [if_neg hz] at h
          have hiv : integer = v := by simpa using h
          subst hiv
          unfold decode_int_no_sign at hd
          split at hd
          next hbe =>
            have h0 : (0 : Int) = integer := by simpa using hd
            omega
          · have hinv := decodeLoop_neg_inv _ _ _ _ hd
            have hval := hinv.2
            simp only [zero_mul, zero_sub] at hval
            omega
    next hneg =>
      split at h
      next hdig =>
        match hd : decode_int_no_sign (b :: rest) false with
        | .error e =>
          rw [hd] at h
          exact absurd h (by simp)
        | .ok integer =>
          rw [hd] at h
          dsimp only [] at h
          have hiv : integer = v := by simpa using h
          subst hiv
          unfold decode_int_no_sign at hd
          split at hd
          next hbe =>
            have h0 : (0 : Int) = integer := by simpa using hd
            rw [hbe, ← h0]
            refine ⟨by intro x hx; simp at hx; omega, by
              norm_num [natOfDigits]⟩
          · have hinv := decodeLoop_pos_inv _ _ _ _ hd
            refine ⟨hinv.1, ?_⟩
            have hval := hinv.2
            simpa using hval
      · exact absurd h (by simp)

/-! ### Inversion of the effect primitives -/

theorem Res.bind_ok_inv {α β : Type} {x : Res α} {f : α → Res β}
    {b : β} (h : Res.bind x f = .ok b) : ∃ a, x = .ok a ∧ f a = .ok b := by
  cases x with
  | ok a => exact ⟨a, rfl, h⟩
  | fail e => exact absurd h (by simp [Res.bind])
  | crash => exact absurd h (by simp [Res.bind])

theorem liftE_ok_inv {α : Type} {e : Except BDecodeError α} {a : α}
    (h : liftE e = .ok a) : e = .ok a := by
  cases e with
  | ok x => simpa [liftE] using h
  | error err => simp [liftE] at h

theorem agetBang_ok {α : Type} {a : Array α} {i : Nat} {x : α}
    [Inhabited α] (h : agetBang a i = .ok x) :
    i < a.size ∧ x = a.getD i default := by
  unfold agetBang at h
  match hm : a[i]? with
  | none => rw [hm] at h; simp at h
  | some y =>
    rw [hm] at h
    have hxy : y = x := by simpa using h
    subst hxy
    have hi : i < a.size := by
      by_contra hc
      rw [Array.getElem?_len_le a (by omega)] at hm
      simp at hm
    refine ⟨hi, ?_⟩
    unfold Array.getD
    rw [dif_pos hi]
    rw [Array.getElem?_eq_getElem hi] at hm
    simpa using hm.symm

theorem asetBang_ok {α : Type} {a : Array α} {i : Nat} {x : α}
    {a' : Array α} (h : asetBang a i x = .ok a') :
    ∃ hi : i < a.size, a' = a.set ⟨i, hi⟩ x := by
  unfold asetBang at h
  split at h
  next hi => exact ⟨hi, by simpa using h.symm⟩
  · simp at h

theorem lgetBang_ok {l : List Nat} {i : Nat} {x : Nat}
    (h : lgetBang l i = .ok x) : i < l.length ∧ x = l.getD i 0 := by
  unfold lgetBang at h
  match hm : l[i]? with
  | none => rw [hm] at h; simp at h
  | some y =>
    rw [hm] at h
    have hxy : y = x := by simpa using h
    subst hxy
    have hi : i < l.length := by
      by_contra hc
      rw [List.getElem?_eq_none (show l.length ≤ i by omega)] at hm
      simp at hm
    refine ⟨hi, ?_⟩
    rw [List.getD_eq_getElem?_getD, hm]
    rfl

theorem lsliceBang_ok {l : List Nat} {a b : Nat} {s : List Nat}
    (h : lsliceBang l a b = .ok s) :
    a ≤ b ∧ b ≤ l.length ∧ s = (l.drop a).take (b - a) := by
  unfold lsliceBang at h
  split at h
  next hc => exact ⟨hc.1, hc.2, by simpa using h.symm⟩
  · simp at h

theorem subBang_ok {a b c : Nat} (h : subBang a b = .ok c) :
    b ≤ a ∧ c = a - b := by
  unfold subBang at h
  split at h
  next hc => exact ⟨hc, by simpa using h.symm⟩
  · simp at h

theorem dassert_ok {c : Prop} [Decidable c] {u : Unit}
    (h : dassert c = .ok u) : c := by
  unfold dassert at h
  split at h
  next hc => exact hc
  · simp at h

/-! ### Transport of `spansClosed` and `strFact` -/

theorem spansClosed_congr (ts ts' : Array Token) (j : Nat)
    (hsz : ts.size ≤ ts'.size)
    (hrec : ts'.getD j default = ts.getD j default)
    (htype : ∀ i, i < ts.size →
      (ts'.getD i default).token_type = (ts.getD i default).token_type)
    (h : spansClosed ts j) : spansClosed ts' j := by
  obtain ⟨h2, hb, hE, hz, hpos⟩ := h
  have hlt : ∀ m, m ≤ j + (ts.getD j default).next_item →
      bal ts' j m = bal ts j m := fun m hm =>
    bal_congr ts ts' j m (fun i h1 h2 => htype i (by omega))
  refine ⟨?_, ?_, ?_, ?_, ?_⟩
  · rw [hrec]; exact h2
  · rw [hrec]; omega
  · rw [hrec, htype _ (by omega)]; exact hE
  · rw [hrec, hlt _ le_rfl]; exact hz
  · intro m hm1 hm2
    rw [hrec] at hm2
    rw [hlt m (by omega)]
    exact hpos m hm1 hm2

theorem strFact_carry (buf : List Nat) (ts ts' : Array Token)
    (cursor cursor' : Nat) (j : Nat)
    (hrec : ts'.getD j default = ts.getD j default)
    (hnext : (if j + 1 < ts'.size then (ts'.getD (j + 1) default).offset
        else cursor') =
      (if j + 1 < ts.size then (ts.getD (j + 1) default).offset
        else cursor))
    (h : strFact buf ts cursor j) : strFact buf ts' cursor' j := by
  intro htype
  rw [hrec] at htype
  obtain ⟨hdig, hcolon, heq, hle⟩ := h htype
  rw [hrec, hnext]
  exact ⟨hdig, hcolon, heq, hle⟩

/-! ### Invariant preservation helpers -/

theorem ParseInv.stack_congr {buf : List Nat} {st : ParseState}
    (inv : ParseInv buf st) (stack' : Array StackFrame)
    (hsize : stack'.size = st.stack.size)
    (htk : ∀ i, i < st.stack.size →
      (stack'.getD i default).token = (st.stack.getD i default).token) :
    ParseInv buf { st with stack := stack' } := by
  have hft : ∀ i, i < st.sp →
      frameTok { st with stack := stack' } i = frameTok st i := by
    intro i hi
    show (stack'.getD i default).token = (st.stack.getD i default).token
    exact htk i (by rw [← inv.hsp]; omega)
  have hre : ∀ i, i < st.sp →
      regionEnd { st with stack := stack' } i = regionEnd st i := by
    intro i hi
    unfold regionEnd
    by_cases hi1 : i + 1 < st.sp
    · rw [if_pos hi1, if_pos hi1, hft (i + 1) hi1]
    · rw [if_neg hi1, if_neg hi1]
  refine ⟨?_, inv.htok, inv.hoff, ?_, ?_, ?_, ?_, inv.hstr⟩
  · show st.sp = stack'.size
    rw [hsize]
    exact inv.hsp
  · intro i hi
    rw [hft i hi]
    exact inv.hframes i hi
  · intro i hi
    have hi' : i + 1 < st.sp := hi
    rw [hft i (by omega), hft (i + 1) hi']
    exact inv.hmono i hi'
  · intro i hi
    rw [hft i hi, hre i hi]
    exact inv.hreg i hi
  · intro j hj hc
    rcases inv.hclosed j hj hc with ⟨i, hi, hfi⟩ | hsc
    · exact Or.inl ⟨i, hi, by rw [hft i hi]; exact hfi⟩
    · exact Or.inr hsc

theorem ParseInv.push_leaf {buf : List Nat} {st : ParseState}
    (inv : ParseInv buf st) (t : Token) (off' : Nat)
    (hw : wt t.token_type = 0) (hnc : ¬isContainer t.token_type)
    (hto : t.offset = st.off)
    (ho1 : st.off < off') (ho2 : off' ≤ buf.length)
    (hstr_new : strFact buf (st.tokens.push t) off' st.tokens.size) :
    ParseInv buf { st with tokens := st.tokens.push t, off := off' } := by
  have hcong : ∀ a b, b ≤ st.tokens.size →
      bal (st.tokens.push t) a b = bal st.tokens a b := by
    intro a b hb
    exact bal_congr _ _ a b (fun i h1 h2 => by
      rw [agetD_push_lt _ _ _ _ (by omega)])
  have hre_le : ∀ i, i < st.sp → regionEnd st i ≤ st.tokens.size := by
    intro i hi
    unfold regionEnd
    by_cases hi1 : i + 1 < st.sp
    · rw [if_pos hi1]
      exact le_of_lt (inv.hframes (i + 1) hi1).1
    · rw [if_neg hi1]
  have hf_lt : ∀ i, i < st.sp → frameTok st i < st.tokens.size :=
    fun i hi => (inv.hframes i hi).1
  refine ⟨inv.hsp, ?_, ho2, ?_, inv.hmono, ?_, ?_, ?_⟩
  · show (st.tokens.push t).size ≤ off'
    rw [Array.size_push]
    have := inv.htok
    omega
  · intro i hi
    have hi' : i < st.sp := hi
    obtain ⟨h1, h2, h3⟩ := inv.hframes i hi'
    refine ⟨?_, ?_, ?_⟩
    · show frameTok st i < (st.tokens.push t).size
      rw [Array.size_push]
      omega
    · show isContainer
        ((st.tokens.push t).getD (frameTok st i) default).token_type
      rw [agetD_push_lt _ _ _ _ h1]
      exact h2
    · show ((st.tokens.push t).getD (frameTok st i) default).next_item = 0
      rw [agetD_push_lt _ _ _ _ h1]
      exact h3
  · intro i hi
    have hi' : i < st.sp := hi
    obtain ⟨hz, hp⟩ := inv.hreg i hi'
    have hfi := hf_lt i hi'
    show bal (st.tokens.push t) (frameTok st i + 1)
        (if i + 1 < st.sp then frameTok st (i + 1)
          else (st.tokens.push t).size) = 0 ∧
      ∀ m, frameTok st i < m →
        m ≤ (if i + 1 < st.sp then frameTok st (i + 1)
          else (st.tokens.push t).size) →
        0 ≤ bal (st.tokens.push t) (frameTok st i + 1) m
    by_cases hi1 : i + 1 < st.sp
    · rw [if_pos hi1]
      have hrend : frameTok st (i + 1) = regionEnd st i := by
        unfold regionEnd
        rw [if_pos hi1]
      rw [hrend]
      refine ⟨by rw [hcong _ _ (hre_le i hi')]; exact hz,
        fun m hm1 hm2 => ?_⟩
      rw [hcong _ _ (le_trans hm2 (hre_le i hi'))]
      exact hp m hm1 hm2
    · rw [if_neg hi1, Array.size_push]
      have hreo : regionEnd st i = st.tokens.size := by
        unfold regionEnd
        rw [if_neg hi1]
      rw [hreo] at hz hp
      have hz1 : bal (st.tokens.push t) (frameTok st i + 1)
          (st.tokens.size + 1) = 0 := by
        rw [bal_succ_right _ _ _ (by omega), hcong _ _ le_rfl,
          agetD_push_eq, hz, hw]
        norm_num
      refine ⟨hz1, fun m hm1 hm2 => ?_⟩
      by_cases hms : m ≤ st.tokens.size
      · rw [hcong _ _ hms]
        exact hp m hm1 hms
      · have hmeq : m = st.tokens.size + 1 := by omega
        rw [hmeq]
        exact le_of_eq hz1.symm
  · intro j hj hc
    have hj' : j < (st.tokens.push t).size := hj
    rw [Array.size_push] at hj'
    by_cases hjs : j < st.tokens.size
    · have hc' : isContainer (st.tokens.getD j default).token_type := by
        rw [show ((st.tokens.push t).getD j default) = st.tokens.getD j
          default from agetD_push_lt _ _ _ _ hjs] at hc
        exact hc
      rcases inv.hclosed j hjs hc' with ⟨i, hi, hfi⟩ | hsc
      · exact Or.inl ⟨i, hi, hfi⟩
      · refine Or.inr (spansClosed_congr st.tokens (st.tokens.push t) j
          (by rw [Array.size_push]; omega)
          (agetD_push_lt _ _ _ _ hjs)
          (fun i h1 => by rw [agetD_push_lt _ _ _ _ h1]) hsc)
    · have hjeq : j = st.tokens.size := by omega
      have hc' : isContainer t.token_type := by
        rw [hjeq] at hc
        rw [show ((st.tokens.push t).getD st.tokens.size default) = t from
          agetD_push_eq _ _ _] at hc
        exact hc
      exact absurd hc' hnc
  · intro j hj
    have hj' : j < (st.tokens.push t).size := hj
    rw [Array.size_push] at hj'
    by_cases hjs : j < st.tokens.size
    · refine strFact_carry buf st.tokens (st.tokens.push t) st.off off' j
        (agetD_push_lt _ _ _ _ hjs) ?_ (inv.hstr j hjs)
      by_cases hj1 : j + 1 < st.tokens.size
      · rw [if_pos (by rw [Array.size_push]; omega), if_pos hj1,
          agetD_push_lt _ _ _ _ hj1]
      · have hj1e : j + 1 = st.tokens.size := by omega
        rw [if_pos (by rw [Array.size_push]; omega), if_neg hj1, hj1e,
          agetD_push_eq, hto]
    · have hjeq : j = st.tokens.size := by omega
      show strFact buf (st.tokens.push t) off' j
      rw [hjeq]
      exact hstr_new

theorem ParseInv.push_open {buf : List Nat} {st : ParseState}
    (inv : ParseInv buf st) (t : Token) (fr : StackFrame)
    (hcont : isContainer t.token_type) (hni : t.next_item = 0)
    (hto : t.offset = st.off) (hfr : fr.token = st.tokens.size)
    (hoff_lt : st.off < buf.length) :
    ParseInv buf { st with
      sp := st.sp + 1
      stack := st.stack.push fr
      tokens := st.tokens.push t
      off := st.off + 1 } := by
  have hcong : ∀ a b, b ≤ st.tokens.size →
      bal (st.tokens.push t) a b = bal st.tokens a b := by
    intro a b hb
    exact bal_congr _ _ a b (fun i h1 h2 => by
      rw [agetD_push_lt _ _ _ _ (by omega)])
  have hre_le : ∀ i, i < st.sp → regionEnd st i ≤ st.tokens.size := by
    intro i hi
    unfold regionEnd
    by_cases hi1 : i + 1 < st.sp
    · rw [if_pos hi1]
      exact le_of_lt (inv.hframes (i + 1) hi1).1
    · rw [if_neg hi1]
  have hf_lt : ∀ i, i < st.sp → frameTok st i < st.tokens.size :=
    fun i hi => (inv.hframes i hi).1
  have hsp' := inv.hsp
  have hft : ∀ i, i < st.sp →
      ((st.stack.push fr).getD i default).token = frameTok st i := by
    intro i hi
    rw [agetD_push_lt _ _ _ _ (by omega)]
    rfl
  have hftp : ((st.stack.push fr).getD st.stack.size default).token =
      st.tokens.size := by
    rw [agetD_push_eq]
    exact hfr
  refine ⟨?_, ?_, ?_, ?_, ?_, ?_, ?_, ?_⟩
  · show st.sp + 1 = (st.stack.push fr).size
    rw [Array.size_push]
    omega
  · show (st.tokens.push t).size ≤ st.off + 1
    rw [Array.size_push]
    have := inv.htok
    omega
  · show st.off + 1 ≤ buf.length
    omega
  · intro i hi
    have hi' : i < st.sp + 1 := hi
    show ((st.stack.push fr).getD i default).token < (st.tokens.push t).size ∧
      isContainer ((st.tokens.push t).getD
        ((st.stack.push fr).getD i default).token default).token_type ∧
      ((st.tokens.push t).getD
        ((st.stack.push fr).getD i default).token default).next_item = 0
    by_cases his : i < st.sp
    · obtain ⟨h1, h2, h3⟩ := inv.hframes i his
      rw [hft i his, Array.size_push, agetD_push_lt _ _ _ _ h1]
      exact ⟨by omega, h2, h3⟩
    · have hieq : i = st.sp := by omega
      rw [hieq, hsp', hftp, Array.size_push, agetD_push_eq]
      exact ⟨by omega, hcont, hni⟩
  · intro i hi
    have hi' : i + 1 < st.sp + 1 := hi
    show ((st.stack.push fr).getD i default).token <
      ((st.stack.push fr).getD (i + 1) default).token
    by_cases his : i + 1 < st.sp
    · rw [hft i (by omega), hft (i + 1) his]
      exact inv.hmono i his
    · have hieq : i + 1 = st.sp := by omega
      rw [hft i (by omega), hieq, hsp', hftp]
      exact hf_lt i (by omega)
  · intro i hi
    have hi' : i < st.sp + 1 := hi
    show bal (st.tokens.push t)
        (((st.stack.push fr).getD i default).token + 1)
        (if i + 1 < st.sp + 1 then
          ((st.stack.push fr).getD (i + 1) default).token
          else (st.tokens.push t).size) = 0 ∧
      ∀ m, ((st.stack.push fr).getD i default).token < m →
        m ≤ (if i + 1 < st.sp + 1 then
          ((st.stack.push fr).getD (i + 1) default).token
          else (st.tokens.push t).size) →
        0 ≤ bal (st.tokens.push t)
          (((st.stack.push fr).getD i default).token + 1) m
    by_cases his : i < st.sp
    · rw [hft i his, if_pos (by omega)]
      obtain ⟨hz, hp⟩ := inv.hreg i his
      have hrend : ((st.stack.push fr).getD (i + 1) default).token =
          regionEnd st i := by
        unfold regionEnd
        by_cases hi1 : i + 1 < st.sp
        · rw [if_pos hi1, hft (i + 1) hi1]
        · have hieq : i + 1 = st.sp := by omega
          rw [if_neg hi1, hieq, hsp', hftp]
      rw [hrend]
      refine ⟨by rw [hcong _ _ (hre_le i his)]; exact hz,
        fun m hm1 hm2 => ?_⟩
      rw [hcong _ _ (le_trans hm2 (hre_le i his))]
      exact hp m hm1 hm2
    · have hieq : i = st.sp := by omega
      rw [hieq, if_neg (by omega), hsp', hftp, Array.size_push]
      refine ⟨bal_same _ _, fun m hm1 hm2 => ?_⟩
      have hmeq : m = st.tokens.size + 1 := by omega
      rw [hmeq]
      exact le_of_eq (bal_same _ _).symm
  · intro j hj hc
    have hj' : j < (st.tokens.push t).size := hj
    rw [Array.size_push] at hj'
    by_cases hjs : j < st.tokens.size
    · have hc' : isContainer (st.tokens.getD j default).token_type := by
        rw [show ((st.tokens.push t).getD j default) = st.tokens.getD j
          default from agetD_push_lt _ _ _ _ hjs] at hc
        exact hc
      rcases inv.hclosed j hjs hc' with ⟨i, hi, hfi⟩ | hsc
      · refine Or.inl ⟨i, show i < st.sp + 1 by omega, ?_⟩
        show ((st.stack.push fr).getD i default).token = j
        rw [hft i hi]
        exact hfi
      · refine Or.inr (spansClosed_congr st.tokens (st.tokens.push t) j
          (by rw [Array.size_push]; omega)
          (agetD_push_lt _ _ _ _ hjs)
          (fun i h1 => by rw [agetD_push_lt _ _ _ _ h1]) hsc)
    · have hjeq : j = st.tokens.size := by omega
      refine Or.inl ⟨st.sp, show st.sp < st.sp + 1 by omega, ?_⟩
      show ((st.stack.push fr).getD st.sp default).token = j
      rw [hsp', hftp, hjeq]
  · intro j hj
    have hj' : j < (st.tokens.push t).size := hj
    rw [Array.size_push] at hj'
    by_cases hjs : j < st.tokens.size
    · refine strFact_carry buf st.tokens (st.tokens.push t) st.off
        (st.off + 1) j (agetD_push_lt _ _ _ _ hjs) ?_ (inv.hstr j hjs)
      by_cases hj1 : j + 1 < st.tokens.size
      · rw [if_pos (by rw [Array.size_push]; omega), if_pos hj1,
          agetD_push_lt _ _ _ _ hj1]
      · have hj1e : j + 1 = st.tokens.size := by omega
        rw [if_pos (by rw [Array.size_push]; omega), if_neg hj1, hj1e,
          agetD_push_eq, hto]
    · have hjeq : j = st.tokens.size := by omega
      intro htype
      rw [hjeq] at htype
      rw [show ((st.tokens.push t).getD st.tokens.size default) = t from
        agetD_push_eq _ _ _] at htype
      rcases hcont with hcd | hcl
      · rw [hcd] at htype
        exact absurd htype (by simp)
      · rw [hcl] at htype
        exact absurd htype (by simp)

theorem wt_container {ty : TokenType} (h : isContainer ty) : wt ty = 1 := by
  rcases h with h | h <;> rw [h] <;> rfl

theorem frameTok_chain {buf : List Nat} {st : ParseState}
    (inv : ParseInv buf st) : ∀ i j, i < j → j < st.sp →
      frameTok st i < frameTok st j := by
  intro i j
  induction j with
  | zero => omega
  | succ j ih =>
    intro hij hj
    by_cases hje : i = j
    · subst hje
      exact inv.hmono i hj
    · exact lt_trans (ih (by omega) (by omega)) (inv.hmono j hj)

theorem ParseInv.close {buf : List Nat} {st : ParseState}
    (inv : ParseInv buf st) (hsp1 : 1 ≤ st.sp)
    (top : Nat) (htop : top = frameTok st (st.sp - 1))
    (endTok : Token) (hE : endTok.token_type = .End)
    (hEoff : endTok.offset = st.off)
    (patched : Token)
    (hp_off : patched.offset = (st.tokens.getD top default).offset)
    (hp_type : patched.token_type =
      (st.tokens.getD top default).token_type)
    (hp_ni : patched.next_item = st.tokens.size + 1 - top)
    (tokens2 : Array Token)
    (hsz2 : tokens2.size = st.tokens.size + 1)
    (hg2top : tokens2.getD top default = patched)
    (hg2end : tokens2.getD st.tokens.size default = endTok)
    (hg2old : ∀ i, i < st.tokens.size → i ≠ top →
      tokens2.getD i default = st.tokens.getD i default)
    (stack' : Array StackFrame)
    (hss : stack'.size + 1 = st.stack.size)
    (hstok : ∀ i, i < stack'.size →
      (stack'.getD i default).token = (st.stack.getD i default).token)
    (hoffb : st.off < buf.length) :
    ParseInv buf { st with
      sp := st.sp - 1
      stack := stack'
      tokens := tokens2
      off := st.off + 1 } := by
  have hspsz := inv.hsp
  obtain ⟨hfS, hfC, hfni⟩ := inv.hframes (st.sp - 1) (by omega)
  rw [← htop] at hfS hfC hfni
  have hz_top : bal st.tokens (top + 1) st.tokens.size = 0 := by
    have := (inv.hreg (st.sp - 1) (by omega)).1
    rw [← htop] at this
    unfold regionEnd at this
    rw [if_neg (by omega)] at this
    exact this
  have hp_top : ∀ m, top < m → m ≤ st.tokens.size →
      0 ≤ bal st.tokens (top + 1) m := by
    intro m hm1 hm2
    have := (inv.hreg (st.sp - 1) (by omega)).2 m
    rw [← htop] at this
    unfold regionEnd at this
    rw [if_neg (by omega)] at this
    exact this hm1 hm2
  have htype2 : ∀ i, i < st.tokens.size →
      (tokens2.getD i default).token_type =
        (st.tokens.getD i default).token_type := by
    intro i hi
    by_cases hif : i = top
    · rw [hif, hg2top, hp_type]
    · rw [hg2old i hi hif]
  have hcong2 : ∀ a b, b ≤ st.tokens.size →
      bal tokens2 a b = bal st.tokens a b := by
    intro a b hb
    exact bal_congr _ _ a b (fun i h1 h2 => htype2 i (by omega))
  have hbal_top : bal tokens2 top (st.tokens.size + 1) = 0 := by
    rw [bal_succ_right _ _ _ (by omega), hg2end, hE,
      bal_split tokens2 top (top + 1) st.tokens.size (by omega) (by omega),
      bal_single, hg2top, hp_type, wt_container hfC,
      hcong2 _ _ le_rfl, hz_top]
    rfl
  have hpos_top : ∀ m, top < m → m < st.tokens.size + 1 →
      0 < bal tokens2 top m := by
    intro m hm1 hm2
    rw [bal_split tokens2 top (top + 1) m (by omega) (by omega),
      bal_single, hg2top, hp_type, wt_container hfC,
      hcong2 _ _ (by omega)]
    have := hp_top m hm1 (by omega)
    omega
  have hchain := frameTok_chain inv
  have hflt : ∀ i, i < st.sp - 1 → frameTok st i < top := by
    intro i hi
    rw [htop]
    exact hchain i (st.sp - 1) (by omega) (by omega)
  have hft : ∀ i, i < st.sp - 1 →
      (stack'.getD i default).token = frameTok st i := by
    intro i hi
    rw [hstok i (by omega)]
    rfl
  refine ⟨?_, ?_, ?_, ?_, ?_, ?_, ?_, ?_⟩
  · show st.sp - 1 = stack'.size
    omega
  · show tokens2.size ≤ st.off + 1
    rw [hsz2]
    have := inv.htok
    omega
  · show st.off + 1 ≤ buf.length
    omega
  · intro i hi
    have hi' : i < st.sp - 1 := hi
    obtain ⟨h1, h2, h3⟩ := inv.hframes i (by omega)
    show (stack'.getD i default).token < tokens2.size ∧
      isContainer (tokens2.getD
        (stack'.getD i default).token default).token_type ∧
      (tokens2.getD (stack'.getD i default).token default).next_item = 0
    rw [hft i hi', hsz2, hg2old _ h1 (by have := hflt i hi'; omega)]
    exact ⟨by omega, h2, h3⟩
  · intro i hi
    have hi' : i + 1 < st.sp - 1 := hi
    show (stack'.getD i default).token <
      (stack'.getD (i + 1) default).token
    rw [hft i (by omega), hft (i + 1) hi']
    exact inv.hmono i (by omega)
  · intro i hi
    have hi' : i < st.sp - 1 := hi
    show bal tokens2 ((stack'.getD i default).token + 1)
        (if i + 1 < st.sp - 1 then (stack'.getD (i + 1) default).token
          else tokens2.size) = 0 ∧
      ∀ m, (stack'.getD i default).token < m →
        m ≤ (if i + 1 < st.sp - 1 then (stack'.getD (i + 1) default).token
          else tokens2.size) →
        0 ≤ bal tokens2 ((stack'.getD i default).token + 1) m
    rw [hft i hi']
    obtain ⟨hz, hp⟩ := inv.hreg i (by omega)
    by_cases hi1 : i + 1 < st.sp - 1
    · rw [if_pos hi1, hft (i + 1) hi1]
      have hrend : frameTok st (i + 1) = regionEnd st i := by
        unfold regionEnd
        rw [if_pos (by omega)]
      have hrlt : frameTok st (i + 1) < st.tokens.size :=
        (inv.hframes (i + 1) (by omega)).1
      rw [hrend] at hrlt ⊢
      refine ⟨by rw [hcong2 _ _ (by omega)]; exact hz,
        fun m hm1 hm2 => ?_⟩
      rw [hcong2 _ _ (by omega)]
      exact hp m hm1 hm2
    · have hieq : i + 1 = st.sp - 1 := by omega
      rw [if_neg hi1, hsz2]
      have hrend : regionEnd st i = top := by
        unfold regionEnd
        rw [if_pos (by omega), hieq]
        exact htop.symm
      rw [hrend] at hz hp
      have hfi_top : frameTok st i < top := hflt i hi'
      have hz1 : bal tokens2 (frameTok st i + 1) (st.tokens.size + 1)
          = 0 := by
        rw [bal_split tokens2 (frameTok st i + 1) top
            (st.tokens.size + 1) (by omega) (by omega),
          hcong2 _ _ (by omega), hz, hbal_top]
        rfl
      refine ⟨hz1, fun m hm1 hm2 => ?_⟩
      by_cases hmf : m ≤ top
      · rw [hcong2 _ _ (by omega)]
        exact hp m hm1 hmf
      · rw [bal_split tokens2 (frameTok st i + 1) top m
            (by omega) (by omega),
          hcong2 _ _ (by omega), hz]
        by_cases hms : m < st.tokens.size + 1
        · have := hpos_top m (by omega) hms
          omega
        · have hmeq : m = st.tokens.size + 1 := by omega
          rw [hmeq, hbal_top]
          norm_num
  · intro j hj hc
    have hj' : j < tokens2.size := hj
    rw [hsz2] at hj'
    by_cases hjS : j = st.tokens.size
    · rw [hjS, hg2end, hE] at hc
      rcases hc with hc | hc <;> simp at hc
    by_cases hjf : j = top
    · subst hjf
      refine Or.inr ⟨?_, ?_, ?_, ?_, ?_⟩
      · rw [hg2top, hp_ni]
        omega
      · rw [hg2top, hp_ni, hsz2]
        omega
      · rw [hg2top, hp_ni,
          show j + (st.tokens.size + 1 - j) - 1 = st.tokens.size
            from by omega, hg2end, hE]
      · rw [hg2top, hp_ni,
          show j + (st.tokens.size + 1 - j) = st.tokens.size + 1
            from by omega]
        exact hbal_top
      · intro m hm1 hm2
        rw [hg2top, hp_ni] at hm2
        exact hpos_top m hm1 (by omega)
    · have hjlt : j < st.tokens.size := by omega
      have hc' : isContainer (st.tokens.getD j default).token_type := by
        rw [htype2 j hjlt] at hc
        exact hc
      rcases inv.hclosed j hjlt hc' with ⟨i, hi, hfi⟩ | hsc
      · have hine : i ≠ st.sp - 1 := by
          intro hcc
          rw [hcc, ← htop] at hfi
          exact hjf hfi.symm
        refine Or.inl ⟨i, show i < st.sp - 1 by omega, ?_⟩
        show (stack'.getD i default).token = j
        rw [hft i (by omega)]
        exact hfi
      · refine Or.inr (spansClosed_congr st.tokens tokens2 j
          (by omega) (hg2old j hjlt hjf) htype2 hsc)
  · intro j hj
    have hj' : j < tokens2.size := hj
    rw [hsz2] at hj'
    by_cases hjS : j = st.tokens.size
    · intro htype
      rw [hjS, hg2end, hE] at htype
      exact absurd htype (by simp)
    by_cases hjf : j = top
    · intro htype
      rw [hjf, hg2top, hp_type] at htype
      rcases hfC with hcc | hcc <;> rw [hcc] at htype <;>
        exact absurd htype (by simp)
    · have hjlt : j < st.tokens.size := by omega
      refine strFact_carry buf st.tokens tokens2 st.off (st.off + 1) j
        (hg2old j hjlt hjf) ?_ (inv.hstr j hjlt)
      rw [if_pos (by omega)]
      by_cases hj1S : j + 1 = st.tokens.size
      · rw [if_neg (by omega), hj1S, hg2end, hEoff]
      · have hj1lt : j + 1 < st.tokens.size := by omega
        rw [if_pos hj1lt]
        by_cases hj1f : j + 1 = top
        · rw [hj1f, hg2top, hp_off]
        · rw [hg2old (j + 1) hj1lt hj1f]

theorem pure_ok {α : Type} {a b : α} (h : (pure a : Res α) = .ok b) :
    a = b := Res.ok.inj h

theorem ParseInv_of_fields {buf : List Nat} {x y : ParseState}
    (inv : ParseInv buf x) (hsp : y.sp = x.sp) (hst : y.stack = x.stack)
    (htk : y.tokens = x.tokens) (hof : y.off = x.off) :
    ParseInv buf y := by
  cases x
  cases y
  simp only [] at hsp hst htk hof
  subst hsp
  subst hst
  subst htk
  subst hof
  exact inv

theorem getD_mem_slice (l : List Nat) (a b i : Nat) (h1 : a ≤ i)
    (h2 : i < b) (h3 : b ≤ l.length) :
    l.getD i 0 ∈ (l.drop a).take (b - a) := by
  have hil : i < l.length := by omega
  have hia : i - a < b - a := by omega
  have hia2 : i - a < (l.drop a).length := by
    rw [List.length_drop]
    omega
  have hget : ((l.drop a).take (b - a))[i - a]? = some l[i] := by
    rw [List.getElem?_take, if_pos hia, List.getElem?_drop,
      List.getElem?_eq_getElem (by omega)]
    congr 1
    congr 1
    omega
  have hmem : l[i] ∈ (l.drop a).take (b - a) :=
    List.getElem?_mem hget
  rw [List.getD_eq_getElem?_getD, List.getElem?_eq_getElem hil]
  exact hmem

theorem assemble_no_pop {buf : List Nat} {st1 st2 st' : ParseState}
    (inv1 : ParseInv buf st1)
    (hTsp : st2.sp = st1.sp) (hTtok : st2.tokens = st1.tokens)
    (hToff : st2.off = st1.off) (hTsz : st2.stack.size = st1.stack.size)
    (hTtk : ∀ i, (st2.stack.getD i default).token =
      (st1.stack.getD i default).token)
    (hfin : st2 = st') : ParseInv buf st' := by
  subst hfin
  have inv2 := ParseInv.stack_congr inv1 st2.stack hTsz (fun i _ => hTtk i)
  exact ParseInv_of_fields inv2 hTsp rfl hTtok hToff

theorem bdecodeStepCore_inv {buf : List Nat} {st st' : ParseState}
    {byte : Nat} (hmax : buf.length ≤ Token.MAX_OFFSET)
    (hlt : st.off < buf.length) (inv : ParseInv buf st)
    (h : bdecodeStepCore buf st byte = .ok st') : ParseInv buf st' := by
  have hmax29 : buf.length ≤ 2 ^ 29 - 1 := by
    have : Token.MAX_OFFSET = 2 ^ 29 - 1 := rfl
    omega
  unfold bdecodeStepCore at h
  dsimp only [] at h
  obtain ⟨st1, hst1, h2⟩ := Res.bind_ok_inv h
  obtain ⟨st2, hst2, h3⟩ := Res.bind_ok_inv h2
  clear h h2
  replace h3 : (if st2.sp < st.sp then
      (pure { st2 with stack := st2.stack.pop } : Res ParseState)
    else pure st2) = Res.ok st' := h3
  have hT : st2.sp = st1.sp ∧ st2.tokens = st1.tokens ∧
      st2.off = st1.off ∧ st2.stack.size = st1.stack.size ∧
      ∀ i, (st2.stack.getD i default).token =
        (st1.stack.getD i default).token := by
    by_cases hcf : st.sp > 0
    · rw [if_pos hcf] at hst2
      obtain ⟨fr, hfr, hst2⟩ := Res.bind_ok_inv hst2
      obtain ⟨tk, htk, hst2⟩ := Res.bind_ok_inv hst2
      obtain ⟨hfrlt, hfrD⟩ := agetBang_ok hfr
      split at hst2
      · obtain ⟨stack2, hsk2, hst2⟩ := Res.bind_ok_inv hst2
        obtain ⟨hin, hstack2⟩ := asetBang_ok hsk2
        have he := pure_ok hst2
        subst he
        subst hstack2
        refine ⟨rfl, rfl, rfl, by simp, ?_⟩
        intro i
        show ((st1.stack.set ⟨st.sp - 1, hin⟩ fr.toggle_state).getD i
          default).token = (st1.stack.getD i default).token
        rw [agetD_set _ _ hin]
        by_cases hieq : i = st.sp - 1
        · rw [if_pos hieq, StackFrame.toggle_token, hfrD, hieq]
        · rw [if_neg hieq]
      · have he := pure_ok hst2
        subst he
        exact ⟨rfl, rfl, rfl, rfl, fun i => rfl⟩
    · rw [if_neg hcf] at hst2
      have he := pure_ok hst2
      subst he
      exact ⟨rfl, rfl, rfl, rfl, fun i => rfl⟩
  obtain ⟨hTsp, hTtok, hToff, hTsz, hTtk⟩ := hT
  clear hst2
  split at hst1
  · -- byte = 100: open a dictionary
    have hsize32 : st.tokens.size < 2 ^ 32 := by
      have h1 := inv.htok
      have h2 := inv.hoff
      omega
    rw [if_pos hsize32] at hst1
    obtain ⟨n, hn, hst1⟩ := Res.bind_ok_inv hst1
    have hn' := pure_ok hn
    subst hn'
    obtain ⟨t, ht, hst1⟩ := Res.bind_ok_inv hst1
    obtain ⟨hto, hni, hhd, hty, _⟩ :=
      Token.new_spec _ _ _ _ _ (liftE_ok_inv ht)
    have hs1 := pure_ok hst1
    have inv1 : ParseInv buf st1 := by
      rw [← hs1]
      refine ParseInv.push_open inv t (StackFrame.new st.tokens.size .Key)
        (Or.inl hty) hni hto ?_ hlt
      refine StackFrame.new_token _ _ ?_
      have h1 := inv.htok
      have h2 := inv.hoff
      have : (2:Nat) ^ 31 = 2147483648 := by norm_num
      omega
    have hsp1 : st1.sp = st.sp + 1 := by rw [← hs1]
    rw [if_neg (by omega)] at h3
    exact assemble_no_pop inv1 hTsp hTtok hToff hTsz hTtk (pure_ok h3)
  · -- byte = 108: open a list
    have hsize32 : st.tokens.size < 2 ^ 32 := by
      have h1 := inv.htok
      have h2 := inv.hoff
      omega
    rw [if_pos hsize32] at hst1
    obtain ⟨n, hn, hst1⟩ := Res.bind_ok_inv hst1
    have hn' := pure_ok hn
    subst hn'
    obtain ⟨t, ht, hst1⟩ := Res.bind_ok_inv hst1
    obtain ⟨hto, hni, hhd, hty, _⟩ :=
      Token.new_spec _ _ _ _ _ (liftE_ok_inv ht)
    have hs1 := pure_ok hst1
    have inv1 : ParseInv buf st1 := by
      rw [← hs1]
      refine ParseInv.push_open inv t (StackFrame.new st.tokens.size .Key)
        (Or.inr hty) hni hto ?_ hlt
      refine StackFrame.new_token _ _ ?_
      have h1 := inv.htok
      have h2 := inv.hoff
      have : (2:Nat) ^ 31 = 2147483648 := by norm_num
      omega
    have hsp1 : st1.sp = st.sp + 1 := by rw [← hs1]
    rw [if_neg (by omega)] at h3
    exact assemble_no_pop inv1 hTsp hTtok hToff hTsz hTtk (pure_ok h3)
  · -- byte = 105: an integer literal
    cases hmem : memchr 101 (buf.drop st.off) with
    | none =>
      rw [hmem] at hst1
      exact absurd hst1 (by simp)
    | some idx =>
      rw [hmem] at hst1
      dsimp only [] at hst1
      obtain ⟨ib, hib, hst1⟩ := Res.bind_ok_inv hst1
      obtain ⟨u1, hchk, hst1⟩ := Res.bind_ok_inv hst1
      obtain ⟨t, ht, hst1⟩ := Res.bind_ok_inv hst1
      obtain ⟨u2, hda, hst1⟩ := Res.bind_ok_inv hst1
      obtain ⟨hto, hni, hhd, hty, _⟩ :=
        Token.new_spec _ _ _ _ _ (liftE_ok_inv ht)
      have hs1 := pure_ok hst1
      have hidx := memchr_some_lt _ _ _ hmem
      rw [List.length_drop] at hidx
      have inv1 : ParseInv buf st1 := by
        rw [← hs1]
        refine ParseInv.push_leaf inv t (st.off + idx + 1)
          (by rw [hty]; rfl)
          (by rintro (hcc | hcc) <;> rw [hty] at hcc <;> simp at hcc)
          hto (by omega) (by omega) ?_
        intro htype
        rw [agetD_push_eq, hty] at htype
        exact absurd htype (by simp)
      have hsp1 : st1.sp = st.sp := by rw [← hs1]
      rw [if_neg (by omega)] at h3
      exact assemble_no_pop inv1 hTsp hTtok hToff hTsz hTtk (pure_ok h3)
  · -- byte = 101: close the innermost container
    split at hst1
    · exact absurd hst1 (by simp)
    next hsp0 =>
      obtain ⟨topFr, hfr2, hst1⟩ := Res.bind_ok_inv hst1
      obtain ⟨topTk, htk2, hst1⟩ := Res.bind_ok_inv hst1
      split at hst1
      · exact absurd hst1 (by simp)
      next hdv =>
        obtain ⟨endTok, hET, hst1⟩ := Res.bind_ok_inv hst1
        obtain ⟨topTok, htt, hst1⟩ := Res.bind_ok_inv hst1
        obtain ⟨patched, hpa, hst1⟩ := Res.bind_ok_inv hst1
        obtain ⟨tokens2, hset, hst1⟩ := Res.bind_ok_inv hst1
        obtain ⟨hEto, hEni, hEhd, hEty, _⟩ :=
          Token.new_spec _ _ _ _ _ (liftE_ok_inv hET)
        obtain ⟨hfrlt2, hfrD2⟩ := agetBang_ok hfr2
        have hsp1 : 1 ≤ st.sp := by omega
        have htopf : topFr.token = frameTok st (st.sp - 1) := by
          rw [hfrD2]
          rfl
        have htopS : topFr.token < st.tokens.size := by
          rw [htopf]
          exact (inv.hframes (st.sp - 1) (by omega)).1
        obtain ⟨httlt, httD⟩ := agetBang_ok htt
        have httD' : topTok = st.tokens.getD topFr.token default := by
          rw [httD, agetD_push_lt _ _ _ _ htopS]
        obtain ⟨hpo, hpn, hph, hpt⟩ :=
          Token.set_next_item_spec _ _ _ (liftE_ok_inv hpa)
        obtain ⟨hin2, htokens2⟩ := asetBang_ok hset
        have hs1 := pure_ok hst1
        have hszp : (st.tokens.push endTok).size = st.tokens.size + 1 := by
          rw [Array.size_push]
        have hsz2 : tokens2.size = st.tokens.size + 1 := by
          rw [htokens2, Array.size_set, hszp]
        have hg2 : ∀ j, tokens2.getD j default =
            if j = topFr.token then patched
            else (st.tokens.push endTok).getD j default := by
          intro j
          rw [htokens2, agetD_set _ _ hin2]
        have hg2top : tokens2.getD topFr.token default = patched := by
          rw [hg2, if_pos rfl]
        have hg2end : tokens2.getD st.tokens.size default = endTok := by
          rw [hg2, if_neg (by omega), agetD_push_eq]
        have hg2old : ∀ i, i < st.tokens.size → i ≠ topFr.token →
            tokens2.getD i default = st.tokens.getD i default := by
          intro i hi hne
          rw [hg2, if_neg hne, agetD_push_lt _ _ _ _ hi]
        have hpopped : st2.sp < st.sp := by
          rw [hTsp, ← hs1]
          show st.sp - 1 < st.sp
          omega
        rw [if_pos hpopped] at h3
        have hfin := pure_ok h3
        have hstksz : st.stack.size = st.sp := inv.hsp.symm
        have inv1 : ParseInv buf { st with
            sp := st.sp - 1
            stack := st2.stack.pop
            tokens := tokens2
            off := st.off + 1 } := by
          refine ParseInv.close inv hsp1 topFr.token htopf endTok hEty
            hEto patched ?_ ?_ ?_ tokens2 hsz2 hg2top hg2end hg2old
            (st2.stack.pop) ?_ ?_ hlt
          · rw [hpo, httD']
          · rw [hpt, httD']
          · rw [hpn, hszp]
          · rw [Array.size_pop, hTsz, ← hs1]
            show st.stack.size - 1 + 1 = st.stack.size
            omega
          · intro i hi
            have hi2 : i < st2.stack.size - 1 := by
              rw [Array.size_pop] at hi
              exact hi
            rw [agetD_pop _ _ _ hi2, hTtk i, ← hs1]
        refine ParseInv_of_fields inv1 ?_ ?_ ?_ ?_
        · rw [← hfin, hTsp, ← hs1]
        · rw [← hfin]
        · rw [← hfin, hTtok, ← hs1]
        · rw [← hfin, hToff, ← hs1]
  next b hb100 hb108 hb105 hb101 =>
    -- default: a string
    cases hmem : memchr 58 (buf.drop st.off) with
    | none =>
      rw [hmem] at hst1
      exact absurd hst1 (by simp)
    | some cidx =>
      rw [hmem] at hst1
      dsimp only [] at hst1
      obtain ⟨u1, hda, hst1⟩ := Res.bind_ok_inv hst1
      obtain ⟨ib, hib, hst1⟩ := Res.bind_ok_inv hst1
      obtain ⟨u2, hchk, hst1⟩ := Res.bind_ok_inv hst1
      obtain ⟨sl, hdec, hst1⟩ := Res.bind_ok_inv hst1
      have hcolon := dassert_ok hda
      obtain ⟨hab, hbb, hibv⟩ := lsliceBang_ok hib
      split at hst1
      · obtain ⟨a2, ha2, _⟩ := Res.bind_ok_inv hst1
        exact absurd ha2 (by simp)
      next hslnn =>
        obtain ⟨L, hL, hst1⟩ := Res.bind_ok_inv hst1
        have hLv := pure_ok hL
        split at hst1
        · exact absurd hst1 (by simp)
        next hoff1 =>
          split at hst1
          · exact absurd hst1 (by simp)
          next hrem =>
            obtain ⟨t, ht, hst1⟩ := Res.bind_ok_inv hst1
            obtain ⟨hto, hni, hhd, hty, _, _, hhd7⟩ :=
              Token.new_spec _ _ _ _ _ (liftE_ok_inv ht)
            have hs1 := pure_ok hst1
            have hdinv := decode_int_ok_nonneg _ _
              (liftE_ok_inv hdec) (by omega)
            have hnonempty : st.off < st.off + cidx := by
              by_contra hcc
              have hc0 : cidx = 0 := by omega
              rw [hc0] at hibv
              simp at hibv
              rw [hibv] at hdec
              have := liftE_ok_inv hdec
              simp [decode_int] at this
            have hslv : sl = (natOfDigits ib : Int) := hdinv.2
            have hdig : allDigits ib := hdinv.1
            have hcid : st.off + cidx - st.off = cidx := by omega
            rw [hcid] at hibv
            have hhd' : t.header = cidx - 1 := by rw [hhd]; omega
            have hLv' : L = natOfDigits ib := by
              rw [← hLv, hslv]
              simp
            have hb2 : st.off + (cidx - 1) + 1 = st.off + cidx := by omega
            have inv1 : ParseInv buf st1 := by
              rw [← hs1]
              refine ParseInv.push_leaf inv t (st.off + cidx + 1 + L)
                (by rw [hty]; rfl)
                (by rintro (hcc | hcc) <;> rw [hty] at hcc <;>
                  simp at hcc)
                hto (by omega) (by omega) ?_
              intro htype
              have hgt : (st.tokens.push t).getD st.tokens.size default =
                  t := agetD_push_eq _ _ _
              rw [hgt, hto, hhd', hb2, Array.size_push,
                if_neg (lt_irrefl _)]
              refine ⟨?_, hcolon, ?_, by omega⟩
              · intro i h1 h2
                have hmemb := getD_mem_slice buf st.off (st.off + cidx) i
                  h1 h2 hbb
                rw [hcid, ← hibv] at hmemb
                exact hdig _ hmemb
              · rw [show cidx - 1 + 1 = cidx from by omega, ← hibv, hLv']
                omega
            have hsp1 : st1.sp = st.sp := by rw [← hs1]
            rw [if_neg (by omega)] at h3
            exact assemble_no_pop inv1 hTsp hTtok hToff hTsz hTtk
              (pure_ok h3)

theorem bdecodeStep_inv {buf : List Nat} {st st' : ParseState}
    (hmax : buf.length ≤ Token.MAX_OFFSET)
    (hlt : st.off < buf.length) (inv : ParseInv buf st)
    (h : bdecodeStep buf st = .ok st') : ParseInv buf st' := by
  unfold bdecodeStep at h
  obtain ⟨byte, hbyte, h⟩ := Res.bind_ok_inv h
  change (if st.sp > 0 then
      Res.bind (agetBang st.stack (st.sp - 1)) (fun fr =>
        Res.bind (agetBang st.tokens fr.token) (fun tk =>
          if tk.token_type = .Dict ∧ fr.state = .Key then
            (if ¬is_numeric byte ∧ byte ≠ 101 then
              Res.bind (Res.fail .ExpectedDigit)
                (fun _ => bdecodeStepCore buf st byte)
            else bdecodeStepCore buf st byte)
          else bdecodeStepCore buf st byte))
    else bdecodeStepCore buf st byte) = Res.ok st' at h
  by_cases hcf0 : st.sp > 0
  · rw [if_pos hcf0] at h
    obtain ⟨fr, hfr, h⟩ := Res.bind_ok_inv h
    obtain ⟨tk, htk, h⟩ := Res.bind_ok_inv h
    split at h
    · split at h
      · obtain ⟨a, ha, _⟩ := Res.bind_ok_inv h
        exact absurd ha (by simp)
      · exact bdecodeStepCore_inv hmax hlt inv h
    · exact bdecodeStepCore_inv hmax hlt inv h
  · rw [if_neg hcf0] at h
    exact bdecodeStepCore_inv hmax hlt inv h

theorem ParseInv_init (buf : List Nat) : ParseInv buf ⟨0, #[], #[], 0⟩ := by
  refine ⟨rfl, le_rfl, by simp, ?_, ?_, ?_, ?_, ?_⟩
  · intro i hi
    exact absurd hi (by simp)
  · intro i hi
    exact absurd hi (by simp)
  · intro i hi
    exact absurd hi (by simp)
  · intro j hj
    exact absurd hj (by simp)
  · intro j hj
    exact absurd hj (by simp)

theorem bdecodeGo_inv {buf : List Nat}
    (hmax : buf.length ≤ Token.MAX_OFFSET) :
    ∀ fuel (st stF : ParseState), ParseInv buf st →
      bdecodeGo buf fuel st = .ok stF → ParseInv buf stF ∧ stF.sp = 0 := by
  intro fuel
  induction fuel with
  | zero =>
    intro st stF _ h
    exact absurd h (by simp [bdecodeGo])
  | succ fuel ih =>
    intro st stF inv h
    rw [bdecodeGo] at h
    split at h
    next hlt =>
      cases hstep : bdecodeStep buf st with
      | ok st1 =>
        rw [hstep] at h
        have inv1 := bdecodeStep_inv hmax hlt inv hstep
        dsimp only [] at h
        split at h
        next hz =>
          have hfe : st1 = stF := Res.ok.inj h
          subst hfe
          exact ⟨inv1, hz⟩
        next hnz => exact ih st1 stF inv1 h
      | fail e =>
        rw [hstep] at h
        exact absurd h (by simp)
      | crash =>
        rw [hstep] at h
        exact absurd h (by simp)
    next hge =>
      split at h
      · exact absurd h (by simp)
      next hsp =>
        have hfe : st = stF := Res.ok.inj h
        subst hfe
        exact ⟨inv, by omega⟩

theorem agetBang_eq_ok {α : Type} [Inhabited α] (a : Array α) (i : Nat)
    (hi : i < a.size) : agetBang a i = .ok (a.getD i default) := by
  unfold agetBang Array.getD
  rw [Array.getElem?_eq_getElem hi, dif_pos hi]
  rfl

/-- The facts `bdecode` guarantees about a successful parse: the result
keeps the input buffer, ends in a sentinel `End` record, every container
record is `spansClosed`, and every `Str` record satisfies `strFact`. -/
theorem bdecode_main {buf : List Nat} {bc : Bencode}
    (h : bdecode buf = .ok bc) :
    bc.buf = buf ∧ 1 ≤ bc.tokens.size ∧
    (bc.tokens.getD (bc.tokens.size - 1) default).token_type = .End ∧
    (∀ j, j < bc.tokens.size →
      isContainer (bc.tokens.getD j default).token_type →
      spansClosed bc.tokens j) ∧
    (∀ j, j < bc.tokens.size → strFact buf bc.tokens buf.length j) := by
  unfold bdecode at h
  split at h
  · exact absurd h (by simp)
  next hmax' =>
    split at h
    · exact absurd h (by simp)
    next hne =>
      have hmax : buf.length ≤ Token.MAX_OFFSET := by omega
      cases hgo : bdecodeGo buf (buf.length + 1) ⟨0, #[], #[], 0⟩ with
      | ok stF =>
        rw [hgo] at h
        obtain ⟨invF, hspF⟩ := bdecodeGo_inv hmax (buf.length + 1) _ stF
          (ParseInv_init buf) hgo
        dsimp only [] at h
        cases hT : Token.new stF.off .End 0 0 with
        | error e =>
          rw [hT] at h
          exact absurd h (by simp)
        | ok t =>
          rw [hT] at h
          obtain ⟨hto, hni, hhd, hty, _⟩ := Token.new_spec _ _ _ _ _ hT
          have hbc : ({ buf := buf, tokens := stF.tokens.push t } :
              Bencode) = bc := by
            have := Res.ok.inj h
            exact this
          subst hbc
          have hS1 : (stF.tokens.push t).size = stF.tokens.size + 1 := by
            rw [Array.size_push]
          refine ⟨rfl, by simp [hS1], ?_, ?_, ?_⟩
          · show ((stF.tokens.push t).getD ((stF.tokens.push t).size - 1)
              default).token_type = .End
            rw [hS1, Nat.add_sub_cancel, agetD_push_eq, hty]
          · intro j hj hc
            have hj' : j < stF.tokens.size + 1 := by rw [← hS1]; exact hj
            by_cases hjs : j < stF.tokens.size
            · have hc' : isContainer
                  (stF.tokens.getD j default).token_type := by
                rw [show ((stF.tokens.push t).getD j default) =
                  stF.tokens.getD j default from
                  agetD_push_lt _ _ _ _ hjs] at hc
                exact hc
              rcases invF.hclosed j hjs hc' with ⟨i, hi, _⟩ | hsc
              · rw [hspF] at hi
                omega
              · exact spansClosed_congr stF.tokens (stF.tokens.push t) j
                  (by rw [Array.size_push]; omega)
                  (agetD_push_lt _ _ _ _ hjs)
                  (fun i h1 => by rw [agetD_push_lt _ _ _ _ h1]) hsc
            · have hjeq : j = stF.tokens.size := by omega
              rw [hjeq, agetD_push_eq, hty] at hc
              rcases hc with hc | hc <;> simp at hc
          · intro j hj
            have hj' : j < stF.tokens.size + 1 := by rw [← hS1]; exact hj
            by_cases hjs : j < stF.tokens.size
            · refine strFact_carry buf stF.tokens (stF.tokens.push t)
                stF.off buf.length j (agetD_push_lt _ _ _ _ hjs) ?_
                (invF.hstr j hjs)
              by_cases hj1 : j + 1 < stF.tokens.size
              · rw [if_pos (by rw [Array.size_push]; omega), if_pos hj1,
                  agetD_push_lt _ _ _ _ hj1]
              · have hj1e : j + 1 = stF.tokens.size := by omega
                rw [if_pos (by rw [Array.size_push]; omega), if_neg hj1,
                  hj1e, agetD_push_eq, hto]
            · have hjeq : j = stF.tokens.size := by omega
              intro htype
              rw [hjeq, agetD_push_eq, hty] at htype
              exact absurd htype (by simp)
      | fail e =>
        rw [hgo] at h
        exact absurd h (by simp)
      | crash =>
        rw [hgo] at h
        exact absurd h (by simp)

theorem subBang_eq_ok {a b : Nat} (h : b ≤ a) :
    subBang a b = .ok (a - b) := by
  unfold subBang
  rw [if_pos h]

theorem lsliceBang_eq_ok {l : List Nat} {a b : Nat} (h1 : a ≤ b)
    (h2 : b ≤ l.length) :
    lsliceBang l a b = .ok ((l.drop a).take (b - a)) := by
  unfold lsliceBang
  rw [if_pos ⟨h1, h2⟩]

/-- C7: the claim states that for every successfully parsed buffer, every
container record's `next_item`, once backpatched at the closing
delimiter, spans exactly the container's body including its own closing
`End` record, so that `token_idx + next_item` lands one past that `End`,
on the node following the container.  `spansClosed` states precisely
this: `next_item ≥ 2`, `j + next_item ≤ size`, the record at
`j + next_item - 1` is an `End`, and the container balance of the spanned
range is 0 while every proper prefix stays positive (so that `End` closes
this container and no other). -/
theorem c7_container_next_item_spans (buf : List Nat) (bc : Bencode)
    (h : bdecode buf = .ok bc) (j : Nat) (hj : j < bc.tokens.size)
    (hc : isContainer (bc.tokens.getD j default).token_type) :
    spansClosed bc.tokens j :=
  (bdecode_main h).2.2.2.1 j hj hc

/-- C8 (amended): for every successfully parsed buffer and every `Str`
record, the *effective* header `start_offset` (the stored 3-bit header
field plus the 2 implied bytes) equals the byte count of the string's
length prefix plus colon separator: the `start_offset - 1` bytes at the
record's offset are ASCII digits, the next byte is `':'`, the following
record starts exactly at the end of the declared payload (offset +
start_offset + decoded prefix), and `as_bytes` returns exactly the
payload span `[offset + start_offset, next record's offset)`. -/
theorem c8_str_header_and_payload (buf : List Nat) (bc : Bencode)
    (h : bdecode buf = .ok bc) (j : Nat) (hj : j < bc.tokens.size)
    (hs : (bc.tokens.getD j default).token_type = .Str) :
    j + 1 < bc.tokens.size ∧
    (∀ i, (bc.tokens.getD j default).offset ≤ i →
      i < (bc.tokens.getD j default).offset +
        ((bc.tokens.getD j default).start_offset - 1) →
      48 ≤ buf.getD i 0 ∧ buf.getD i 0 ≤ 57) ∧
    buf.getD ((bc.tokens.getD j default).offset +
      ((bc.tokens.getD j default).start_offset - 1)) 0 = 58 ∧
    (bc.tokens.getD (j + 1) default).offset =
      (bc.tokens.getD j default).offset +
        (bc.tokens.getD j default).start_offset +
        natOfDigits ((buf.drop (bc.tokens.getD j default).offset).take
          ((bc.tokens.getD j default).start_offset - 1)) ∧
    strAsBytesAt buf bc.tokens j =
      .ok ((buf.drop ((bc.tokens.getD j default).offset +
          (bc.tokens.getD j default).start_offset)).take
        ((bc.tokens.getD (j + 1) default).offset -
          (bc.tokens.getD j default).offset -
          (bc.tokens.getD j default).start_offset)) := by
  obtain ⟨hbuf, hsz, hEnd, hcl, hstr⟩ := bdecode_main h
  have hj1 : j + 1 < bc.tokens.size := by
    by_contra hcc
    have hje : j = bc.tokens.size - 1 := by omega
    rw [hje, hEnd] at hs
    exact absurd hs (by simp)
  obtain ⟨hdig, hcolon, heq, hle⟩ := hstr j hj hs
  rw [if_pos hj1] at heq hle
  have hsm : (bc.tokens.getD j default).start_offset - 1 =
      (bc.tokens.getD j default).header + 1 := by
    show (bc.tokens.getD j default).header + 2 - 1 = _
    omega
  have hso : (bc.tokens.getD j default).start_offset =
      (bc.tokens.getD j default).header + 2 := rfl
  refine ⟨hj1, ?_, ?_, ?_, ?_⟩
  · rw [hsm]
    exact hdig
  · rw [hsm]
    exact hcolon
  · rw [hsm, hso]
    omega
  · have hoffle : (bc.tokens.getD j default).offset +
        (bc.tokens.getD j default).start_offset ≤
        (bc.tokens.getD (j + 1) default).offset := by
      rw [hso]
      omega
    unfold strAsBytesAt
    rw [agetBang_eq_ok _ _ hj]
    dsimp only [Res.bind, bind]
    rw [agetBang_eq_ok _ _ hj1]
    dsimp only [Res.bind, bind]
    rw [subBang_eq_ok (by omega)]
    dsimp only [Res.bind, bind]
    rw [subBang_eq_ok (by rw [hso]; omega)]
    dsimp only [Res.bind, bind]
    rw [show (bc.tokens.getD j default).offset +
        (bc.tokens.getD j default).start_offset +
        ((bc.tokens.getD (j + 1) default).offset -
          (bc.tokens.getD j default).offset -
          (bc.tokens.getD j default).start_offset) =
        (bc.tokens.getD (j + 1) default).offset from by rw [hso]; omega]
    rw [lsliceBang_eq_ok (by rw [hso]; omega) hle]
    rw [show (bc.tokens.getD (j + 1) default).offset -
        ((bc.tokens.getD j default).offset +
          (bc.tokens.getD j default).start_offset) =
        (bc.tokens.getD (j + 1) default).offset -
          (bc.tokens.getD j default).offset -
          (bc.tokens.getD j default).start_offset from by omega]

theorem c7_container_next_item_spans_witness :
    spansClosed #[⟨258⟩, ⟨34359738435⟩, ⟨240518168652⟩,
      ⟨377957122117⟩, ⟨412316860421⟩] 0 :=
  c7_container_next_item_spans (strBytes "l4:spami42ee")
    ⟨strBytes "l4:spami42ee", #[⟨258⟩, ⟨34359738435⟩, ⟨240518168652⟩,
      ⟨377957122117⟩, ⟨412316860421⟩]⟩ rfl 0 (by decide) (Or.inr rfl)

theorem c8_str_header_and_payload_witness :
    strAsBytesAt (strBytes "4:spam") #[⟨67⟩, ⟨206158430213⟩] 0 =
      .ok (strBytes "spam") :=
  (c8_str_header_and_payload (strBytes "4:spam")
    ⟨strBytes "4:spam", #[⟨67⟩, ⟨206158430213⟩]⟩ rfl 0 (by decide)
    rfl).2.2.2.2

end Bdecode
